import Mathlib

/-!
Verification of the DATIM-Metadata-Project metadata synchronization code.

This development embeds, as executable Lean definitions, the parts of the
repository that the specification's claims concern:

* `datimsyncmer.py` — the method `DatimSyncMer.dhis2diff_mer`, which walks a
  DHIS2 data-element export and populates the `dhis2_diff` snapshot with
  Indicator concepts, Disaggregate concepts, "Has Option" mappings and
  concept references, keyed by canonical resource-key strings.
* `datim/datimimap.py` — `DatimImap.set_imap_data`, `DatimImap.is_valid` and
  `DatimImapFactory.is_valid_imap_period`.

Python dictionaries are modelled as association lists with the usual
insert-or-update-in-place semantics (assignment to an existing key keeps its
position, assignment to a fresh key appends), Python exceptions as
`Except String`, and JSON objects with possibly missing required fields as
structures with `Option` fields for exactly the keys whose absence the
claims are about.
-/

namespace Datim

/-! ## Python dict model -/

/-- Lookup in an association list: the value of the first entry whose key
matches, mirroring Python `d[k]` (on key-distinct lists). -/
def dictLookup {α : Type} : List (String × α) → String → Option α
  | [], _ => none
  | (k', v') :: rest, k => if k' == k then some v' else dictLookup rest k

/-- Python `k in d`. -/
def dictContains {α : Type} (d : List (String × α)) (k : String) : Bool :=
  (dictLookup d k).isSome

/-- Python `d[k] = v`: update the first entry with key `k` in place, or
append a new entry at the end. -/
def dictInsert {α : Type} : List (String × α) → String → α → List (String × α)
  | [], k, v => [(k, v)]
  | (k', v') :: rest, k, v =>
    if k' == k then (k, v) :: rest else (k', v') :: dictInsert rest k v

/-- The keys of an association list, in order. -/
def dictKeys {α : Type} (d : List (String × α)) : List String :=
  d.map (fun p => p.1)

/-! ## MER data model

The shape of the DHIS2 MER export consumed by `DatimSyncMer.dhis2diff_mer`
(`datimsyncmer.py`, lines 101-222).  The three fields whose absence the
spec's error conditions are about (`code`, `categoryCombo`,
`dataSetElements`) are `Option`-valued: `none` models a JSON object lacking
the key, so that the Python `KeyError` raised by `de['code']` etc. can be
modelled.  The remaining fields are requested explicitly by the DHIS2 query
(`DHIS2_QUERIES` in `datimsyncmer.py`) and are modelled as present. -/

/-- One entry of `categoryCombo.categoryOptionCombos`. -/
structure CategoryOptionCombo where
  id : String
  code : String
  name : String
deriving DecidableEq, Repr

/-- The `categoryCombo` object of a data element. -/
structure CategoryCombo where
  categoryOptionCombos : List CategoryOptionCombo
deriving DecidableEq, Repr

/-- The `dataSet` object of a dataset-element link. -/
structure DataSet where
  id : String
deriving DecidableEq, Repr

/-- One entry of `dataSetElements`. -/
structure DataSetElement where
  dataSet : DataSet
deriving DecidableEq, Repr

/-- A DHIS2 data element.  `description` is `none` when the key is absent;
`some ""` models a present-but-empty description (falsy in Python). -/
structure DataElement where
  id : String
  code : Option String
  name : String
  shortName : String
  description : Option String
  categoryCombo : Option CategoryCombo
  dataSetElements : Option (List DataSetElement)
deriving DecidableEq, Repr

/-- A DHIS2 MER export document. -/
structure Dhis2Export where
  dataElements : List DataElement
deriving DecidableEq, Repr

/-- One entry of a concept record's `names` list. -/
structure ConceptName where
  name : String
  name_type : String
  locale : String
  locale_preferred : Bool
  external_id : Option String
deriving DecidableEq, Repr

/-- One entry of a concept record's `descriptions` list. -/
structure ConceptDescription where
  description : String
  description_type : String
  locale : String
  locale_preferred : Bool
  external_id : Option String
deriving DecidableEq, Repr

/-- A canonical concept record as built by `dhis2diff_mer`
(`indicator_concept` / `disaggregate_concept` dictionaries). -/
structure ConceptRecord where
  type : String
  id : String
  concept_class : String
  datatype : String
  owner : String
  owner_type : String
  source : String
  retired : Bool
  external_id : String
  descriptions : Option (List ConceptDescription)
  names : List ConceptName
deriving DecidableEq, Repr

/-- A canonical mapping record (`disaggregate_mapping` dictionary). -/
structure MappingRecord where
  type : String
  owner : String
  owner_type : String
  source : String
  map_type : String
  from_concept_url : String
  to_concept_url : String
deriving DecidableEq, Repr

/-- Modelled from the spec: the concept-reference record returned by
`DatimSync.get_concept_reference_json`, which lives in `datimsync.py` and is
not among the provided source files.  The spec's data model gives a
Reference Record as `owner, collection_id, concept_url` (spec section 3). -/
structure ReferenceRecord where
  owner : String
  collection_id : String
  concept_url : String
deriving DecidableEq, Repr

/-- The `MER` slice of `self.dhis2_diff`: one Python dict per resource type
(`RESOURCE_TYPE_CONCEPT`, `RESOURCE_TYPE_MAPPING`,
`RESOURCE_TYPE_CONCEPT_REF`). -/
structure MerDiff where
  concepts : List (String × ConceptRecord)
  mappings : List (String × MappingRecord)
  concept_refs : List (String × ReferenceRecord)
deriving DecidableEq, Repr

/-- The running counters local to one `dhis2diff_mer` call. -/
structure MerCounts where
  num_indicators : Nat
  num_disaggregates : Nat
  num_mappings : Nat
  num_indicator_refs : Nat
  num_disaggregate_refs : Nat
deriving DecidableEq, Repr

def emptyMerDiff : MerDiff := ⟨[], [], []⟩

def zeroMerCounts : MerCounts := ⟨0, 0, 0, 0, 0⟩

/-! ## The transformer `dhis2diff_mer` -/

/-- The concept URL / key built for indicators and disaggregates:
`'/orgs/PEPFAR/sources/MER/concepts/' + concept_id + '/'`. -/
def merConceptUrl (concept_id : String) : String :=
  "/orgs/PEPFAR/sources/MER/concepts/" ++ concept_id ++ "/"

/-- The mapping key:
`'/orgs/PEPFAR/sources/MER/mappings/?from=' + from_url + '&maptype=' +
map_type + '&to=' + to_url`. -/
def merMappingKey (from_url map_type to_url : String) : String :=
  "/orgs/PEPFAR/sources/MER/mappings/?from=" ++ from_url ++ "&maptype=" ++
    map_type ++ "&to=" ++ to_url

/-- The `indicator_concept` dictionary built at lines 105-142 of
`datimsyncmer.py` for a data element whose `code` is `concept_id`. -/
def mkIndicatorConcept (concept_id : String) (de : DataElement) : ConceptRecord :=
  { type := "Concept"
    id := concept_id
    concept_class := "Indicator"
    datatype := "Numeric"
    owner := "PEPFAR"
    owner_type := "Organization"
    source := "MER"
    retired := false
    external_id := de.id
    descriptions :=
      match de.description with
      | some d => if d == "" then none else
          some [{ description := d, description_type := "Description", locale := "en",
                  locale_preferred := true, external_id := none }]
      | none => none
    names :=
      [{ name := de.name, name_type := "Fully Specified", locale := "en",
         locale_preferred := true, external_id := none },
       { name := de.shortName, name_type := "Short", locale := "en",
         locale_preferred := false, external_id := none }] }

/-- The `disaggregate_concept` dictionary built at lines 157-177. -/
def mkDisaggregateConcept (coc : CategoryOptionCombo) : ConceptRecord :=
  { type := "Concept"
    id := coc.code
    concept_class := "Disaggregate"
    datatype := "None"
    owner := "PEPFAR"
    owner_type := "Organization"
    source := "MER"
    retired := false
    external_id := coc.id
    descriptions := none
    names :=
      [{ name := coc.name, name_type := "Fully Specified", locale := "en",
         locale_preferred := true, external_id := none }] }

/-- The `disaggregate_mapping` dictionary built at lines 185-193. -/
def mkHasOptionMapping (indicator_concept_url disaggregate_concept_url : String) :
    MappingRecord :=
  { type := "Mapping"
    owner := "PEPFAR"
    owner_type := "Organization"
    source := "MER"
    map_type := "Has Option"
    from_concept_url := indicator_concept_url
    to_concept_url := disaggregate_concept_url }

/-- Modelled from the spec: `DatimSync.get_concept_reference_json` lives in
`datimsync.py`, which is not among the provided sources.  Per the spec's
Resource Key Model (section 4.1) it returns a pure, deterministic,
collision-free reference key for `(owner_id, collection_id, concept_url)`
together with the Reference Record of section 3. -/
def get_concept_reference_json (owner_id collection_id concept_url : String) :
    String × ReferenceRecord :=
  ("/orgs/" ++ owner_id ++ "/collections/" ++ collection_id ++
     "/references/?concept=" ++ concept_url,
   { owner := owner_id, collection_id := collection_id, concept_url := concept_url })

/-- The body of the loop at lines 149-196 of `datimsyncmer.py` for one
`categoryOptionCombo`: append the disaggregate URL to
`indicator_disaggregate_concept_urls`, build the disaggregate concept only
if its key is not already in the concept dict, then build the mapping
unconditionally. -/
def processCoc (indicator_concept_url : String)
    (st : MerDiff × MerCounts × List String) (coc : CategoryOptionCombo) :
    MerDiff × MerCounts × List String :=
  let (diff, counts, urls) := st
  let disaggregate_concept_id := coc.code
  let disaggregate_concept_url := merConceptUrl disaggregate_concept_id
  let disaggregate_concept_key := disaggregate_concept_url
  let urls' := urls ++ [disaggregate_concept_url]
  let newConcepts :=
    dictInsert diff.concepts disaggregate_concept_key (mkDisaggregateConcept coc)
  let (diff₁, counts₁) :=
    if dictContains diff.concepts disaggregate_concept_key then (diff, counts)
    else
      ({ diff with concepts := newConcepts },
       { counts with num_disaggregates := counts.num_disaggregates + 1 })
  let disaggregate_mapping_key :=
    merMappingKey indicator_concept_url "Has Option" disaggregate_concept_url
  let newMappings :=
    dictInsert diff₁.mappings disaggregate_mapping_key
      (mkHasOptionMapping indicator_concept_url disaggregate_concept_url)
  ({ diff₁ with mappings := newMappings },
   { counts₁ with num_mappings := counts₁.num_mappings + 1 },
   urls')

/-- The `for coc in de['categoryCombo']['categoryOptionCombos']` loop. -/
def processCocList (indicator_concept_url : String) :
    MerDiff × MerCounts × List String → List CategoryOptionCombo →
    MerDiff × MerCounts × List String
  | st, [] => st
  | st, coc :: rest =>
    processCocList indicator_concept_url (processCoc indicator_concept_url st coc) rest

/-- The guarded insertion of one disaggregate reference (lines 216-222):
the reference is only created if its key is not already present. -/
def addDisaggregateRef (collection_id : String) (st : MerDiff × MerCounts)
    (disaggregate_concept_url : String) : MerDiff × MerCounts :=
  let (diff, counts) := st
  let (disaggregate_ref_key, disaggregate_ref) :=
    get_concept_reference_json "PEPFAR" collection_id disaggregate_concept_url
  let newRefs := dictInsert diff.concept_refs disaggregate_ref_key disaggregate_ref
  if dictContains diff.concept_refs disaggregate_ref_key then (diff, counts)
  else
    ({ diff with concept_refs := newRefs },
     { counts with num_disaggregate_refs := counts.num_disaggregate_refs + 1 })

/-- The body of the `for dse in de['dataSetElements']` loop (lines 200-222):
skip any dataset id absent from `ocl_dataset_repos`, otherwise create the
indicator reference unconditionally and each disaggregate reference
guardedly.  `ocl_dataset_repos` is modelled as the map from dataset id to
the `'id'` field of the matching repo record (the collection id). -/
def processDse (ocl_dataset_repos : List (String × String))
    (indicator_concept_url : String) (indicator_disaggregate_concept_urls : List String)
    (st : MerDiff × MerCounts) (dse : DataSetElement) : MerDiff × MerCounts :=
  let ds := dse.dataSet
  match dictLookup ocl_dataset_repos ds.id with
  | none => st
  | some collection_id =>
    let (diff, counts) := st
    let (indicator_ref_key, indicator_ref) :=
      get_concept_reference_json "PEPFAR" collection_id indicator_concept_url
    let newRefs := dictInsert diff.concept_refs indicator_ref_key indicator_ref
    let diff₁ := { diff with concept_refs := newRefs }
    let counts₁ := { counts with num_indicator_refs := counts.num_indicator_refs + 1 }
    indicator_disaggregate_concept_urls.foldl (addDisaggregateRef collection_id)
      (diff₁, counts₁)

/-- The `for dse in de['dataSetElements']` loop. -/
def processDseList (ocl_dataset_repos : List (String × String))
    (indicator_concept_url : String) (indicator_disaggregate_concept_urls : List String) :
    MerDiff × MerCounts → List DataSetElement → MerDiff × MerCounts
  | st, [] => st
  | st, dse :: rest =>
    processDseList ocl_dataset_repos indicator_concept_url
      indicator_disaggregate_concept_urls
      (processDse ocl_dataset_repos indicator_concept_url
        indicator_disaggregate_concept_urls st dse) rest

/-- The body of the `for de in new_dhis2_export['dataElements']` loop
(lines 101-222).  A missing `code`, `categoryCombo` or `dataSetElements`
key raises Python's `KeyError` (the spec's `MalformedExportError`), modelled
as `Except.error`; note the indicator concept is stored before
`categoryCombo` is read, and the disaggregates and mappings before
`dataSetElements` is read, exactly as in the source. -/
def processDataElement (ocl_dataset_repos : List (String × String))
    (st : MerDiff × MerCounts) (de : DataElement) : Except String (MerDiff × MerCounts) :=
  match de.code with
  | none => .error "KeyError: code"
  | some indicator_concept_id =>
    let indicator_concept_url := merConceptUrl indicator_concept_id
    let indicator_concept_key := indicator_concept_url
    let newConcepts :=
      dictInsert st.1.concepts indicator_concept_key
        (mkIndicatorConcept indicator_concept_id de)
    let diff₁ := { st.1 with concepts := newConcepts }
    let counts₁ := { st.2 with num_indicators := st.2.num_indicators + 1 }
    match de.categoryCombo with
    | none => .error "KeyError: categoryCombo"
    | some cc =>
      let (diff₂, counts₂, indicator_disaggregate_concept_urls) :=
        processCocList indicator_concept_url (diff₁, counts₁, [])
          cc.categoryOptionCombos
      match de.dataSetElements with
      | none => .error "KeyError: dataSetElements"
      | some dses =>
        .ok (processDseList ocl_dataset_repos indicator_concept_url
          indicator_disaggregate_concept_urls (diff₂, counts₂) dses)

/-- The `for de in new_dhis2_export['dataElements']` loop, stopping at the
first raised error. -/
def processElements (ocl_dataset_repos : List (String × String)) :
    MerDiff × MerCounts → List DataElement → Except String (MerDiff × MerCounts)
  | st, [] => .ok st
  | st, de :: rest =>
    match processDataElement ocl_dataset_repos st de with
    | .ok st' => processElements ocl_dataset_repos st' rest
    | .error e => .error e

/-- `DatimSyncMer.dhis2diff_mer`: transform a parsed DHIS2 MER export into
the `dhis2_diff` snapshot.  `dhis2_diff` is the `MER` slice of
`self.dhis2_diff` at entry; the counters start at zero on every call. -/
def dhis2diff_mer (ocl_dataset_repos : List (String × String)) (dhis2_diff : MerDiff)
    (new_dhis2_export : Dhis2Export) : Except String (MerDiff × MerCounts) :=
  processElements ocl_dataset_repos (dhis2_diff, zeroMerCounts)
    new_dhis2_export.dataElements

/-! ## `datim/datimimap.py`: `DatimImap` and `DatimImapFactory` -/

/-- An I-MAP row: a Python dict from field name to value. -/
abbrev ImapRow : Type := List (String × String)

/-- `DatimImap.IMAP_FIELD_NAMES`. -/
def IMAP_FIELD_NAMES : List String :=
  ["DATIM_Indicator_Category",
   "DATIM_Indicator_ID",
   "DATIM_Disag_ID",
   "DATIM_Disag_Name",
   "Operation",
   "MOH_Indicator_ID",
   "MOH_Indicator_Name",
   "MOH_Disag_ID",
   "MOH_Disag_Name"]

/-- The possible Python values passed as `imap_data` to
`DatimImap.set_imap_data`: a `csv.DictReader` (a row iterator), a list,
`None` (the constructor default), or a value of any other type. -/
inductive ImapDataArg : Type where
  | dictReader (rows : List ImapRow)
  | pyList (rows : List ImapRow)
  | pyNone
  | otherValue
deriving DecidableEq

/-- The attribute state of a `DatimImap` object: `imap_data` is the private
`__imap_data` attribute, `none` modelling Python `None`. -/
structure DatimImapState where
  country_code : String
  country_org : String
  period : String
  imap_data : Option (List ImapRow)
deriving DecidableEq

/-- `DatimImap.set_imap_data`: a `csv.DictReader` is copied row by row into
a fresh list, a list is stored as-is, and anything else raises
`Exception("Cannot set I-MAP data with '%s'" % imap_data)` — modelled as an
error carrying the object state at the moment of the raise. -/
def set_imap_data (st : DatimImapState) (imap_data : ImapDataArg) :
    Except (String × DatimImapState) DatimImapState :=
  match imap_data with
  | .dictReader rows => .ok { st with imap_data := some rows }
  | .pyList rows => .ok { st with imap_data := some rows }
  | .pyNone => .error ("Cannot set I-MAP data with None", st)
  | .otherValue => .error ("Cannot set I-MAP data with that value", st)

/-- `DatimImap.__init__`: stores the scalar fields, sets `__imap_data` to
`None`, then calls `set_imap_data(imap_data)` (default argument `None`). -/
def DatimImap_init (country_code country_org period : String)
    (imap_data : ImapDataArg) : Except (String × DatimImapState) DatimImapState :=
  set_imap_data
    { country_code := country_code, country_org := country_org, period := period,
      imap_data := none }
    imap_data

/-- The inner `for field_name in self.IMAP_FIELD_NAMES` loop of
`DatimImap.is_valid`: the first field name not present as a key of the row,
scanning in declaration order. -/
def firstMissingField : List String → ImapRow → Option String
  | [], _ => none
  | f :: rest, row =>
    if row.any (fun p => p.1 == f) then firstMissingField rest row else some f

/-- The `for row in self.__imap_data` loop of `DatimImap.is_valid`, with the
running `line_number` (incremented at the top of each iteration). -/
def isValidRows (throw_exception_on_error : Bool) :
    List ImapRow → Nat → Except String Bool
  | [], _ => .ok true
  | row :: rest, line_number =>
    let ln := line_number + 1
    match firstMissingField IMAP_FIELD_NAMES row with
    | some f =>
      if throw_exception_on_error then
        .error ("Missing field " ++ f ++ " on row " ++ toString ln ++ " of input file")
      else .ok false
    | none => isValidRows throw_exception_on_error rest ln

/-- `DatimImap.is_valid`: `if self.__imap_data:` is Python truthiness, so
both `None` and the empty list fall through to `return False` before any
row is examined. -/
def is_valid (st : DatimImapState) (throw_exception_on_error : Bool) :
    Except String Bool :=
  match st.imap_data with
  | none => .ok false
  | some [] => .ok false
  | some (row :: rest) => isValidRows throw_exception_on_error (row :: rest) 0

/-- `DatimImapFactory.is_valid_imap_period`: the period must equal the one
period defined in the PEPFAR metadata. -/
def is_valid_imap_period (period : String) : Bool :=
  if period == "FY17" then true else false

/-- The allow-list of valid reporting periods that
`is_valid_imap_period` encodes. -/
def validImapPeriods : List String := ["FY17"]


/-! ## Helper definitions used to state the claims -/

/-- The codes of the category-option-combos of a data element (empty when
the `categoryCombo` key is absent). -/
def cocCodes (de : DataElement) : List String :=
  match de.categoryCombo with
  | some cc => cc.categoryOptionCombos.map (fun coc => coc.code)
  | none => []

/-- The first category-option-combo with the given code in a list, in
processing order. -/
def firstCocInList : List CategoryOptionCombo → String → Option CategoryOptionCombo
  | [], _ => none
  | coc :: rest, c => if coc.code == c then some coc else firstCocInList rest c

/-- The first category-option-combo with the given code across the data
elements of an export, in processing order (elements without a
`categoryCombo` contribute nothing; the transformer fails on them anyway).
-/
def firstCoc : List DataElement → String → Option CategoryOptionCombo
  | [], _ => none
  | de :: rest, c =>
    match de.categoryCombo with
    | some cc =>
      match firstCocInList cc.categoryOptionCombos c with
      | some coc => some coc
      | none => firstCoc rest c
    | none => firstCoc rest c

/-- A string free of the `&` delimiter that separates the three components
of a composite mapping key.  DHIS2 indicator codes satisfy this. -/
def ampFree (s : String) : Bool :=
  s.data.all (fun ch => !(ch == '&'))

/-- The mapping key the transformer builds for the pair of an indicator
code and a disaggregate code. -/
def pairMappingKey (d c : String) : String :=
  merMappingKey (merConceptUrl d) "Has Option" (merConceptUrl c)

/-- The mapping record the transformer builds for such a pair. -/
def pairMapping (d c : String) : MappingRecord :=
  mkHasOptionMapping (merConceptUrl d) (merConceptUrl c)

/-- Whether a data element's code (when present) is free of the `&`
delimiter. -/
def codeAmpFree (de : DataElement) : Bool :=
  match de.code with
  | some s => ampFree s
  | none => true

/-- The state after the indicator write and the whole coc loop of one data
element whose `code` is `d` and whose category combo is `cc`, starting from
snapshot `a` and counters `ca` (a name for an intermediate value of
`processDataElement`, used to state its unfolding). -/
def cocPhase (a : MerDiff) (ca : MerCounts) (d : String) (de : DataElement)
    (cc : CategoryCombo) : MerDiff × MerCounts × List String :=
  processCocList (merConceptUrl d)
    ({ a with concepts := dictInsert a.concepts (merConceptUrl d) (mkIndicatorConcept d de) },
     { ca with num_indicators := ca.num_indicators + 1 }, [])
    cc.categoryOptionCombos

/-- Referential integrity of a snapshot: every mapping's `from` and `to`
concept URLs are keys of the concept partition. -/
def RefIntegrity (m : MerDiff) : Prop :=
  ∀ p ∈ m.mappings,
    dictContains m.concepts p.2.from_concept_url = true ∧
    dictContains m.concepts p.2.to_concept_url = true

/-- All three partitions of a snapshot have pairwise-distinct keys (Python
dicts always satisfy this). -/
def NodupMer (m : MerDiff) : Prop :=
  (dictKeys m.concepts).Nodup ∧ (dictKeys m.mappings).Nodup ∧
    (dictKeys m.concept_refs).Nodup

/-- Key containment between two dicts. -/
def dictSub {α : Type} (d d' : List (String × α)) : Prop :=
  ∀ k, dictContains d k = true → dictContains d' k = true

/-- Key containment between two snapshots, partition by partition. -/
def merSub (m m' : MerDiff) : Prop :=
  dictSub m.concepts m'.concepts ∧ dictSub m.mappings m'.mappings ∧
    dictSub m.concept_refs m'.concept_refs

/-- Relation between a first-run dict `a`, a second-run dict `b` and the
first run's final dict `D`, at matching points of the two runs of the
transformer on the same export: `b` has exactly the final key sequence, and
each key holds either its final value or its current first-run value. -/
def DictSim {α : Type} (a b D : List (String × α)) : Prop :=
  dictKeys b = dictKeys D ∧
    ∀ k, dictLookup b k = dictLookup D k ∨ dictLookup b k = dictLookup a k

/-- `DictSim` on all three partitions. -/
def MerSim (a b D : MerDiff) : Prop :=
  DictSim a.concepts b.concepts D.concepts ∧
    DictSim a.mappings b.mappings D.mappings ∧
    DictSim a.concept_refs b.concept_refs D.concept_refs

/-- The 1-based row number and name of the first missing field of the first
invalid I-MAP row, in scan order. -/
def firstBadRow : List ImapRow → Nat → Option (Nat × String)
  | [], _ => none
  | row :: rest, n =>
    match firstMissingField IMAP_FIELD_NAMES row with
    | some f => some (n + 1, f)
    | none => firstBadRow rest (n + 1)

/-! ## Concrete inputs used by the witnesses and counterexamples -/

/-- The active dataset-to-collection table mapping dataset `dsA` to
collection `COL1`. -/
def sampleRepos : List (String × String) := [("dsA", "COL1")]

/-- The spec's scenario data element: `code=TX_NEW`, `name="New on ART"`,
one category-option-combo `code=Age_15+`, linked to dataset `dsA`. -/
def deTX : DataElement :=
  { id := "jmZqMOLfEl3", code := some "TX_NEW", name := "New on ART",
    shortName := "TX_NEW: New on ART", description := none,
    categoryCombo := some ⟨[⟨"HllvX50cXC0", "Age_15+", "Age 15+"⟩]⟩,
    dataSetElements := some [⟨⟨"dsA"⟩⟩] }

/-- A second data element sharing the `Age_15+` disaggregate and dataset
`dsA`. -/
def deHTS : DataElement :=
  { id := "uYMK02mAvpN", code := some "HTS_TST", name := "HIV tests done",
    shortName := "HTS_TST: tests", description := some "Number of tests",
    categoryCombo := some ⟨[⟨"HllvX50cXC0", "Age_15+", "Age 15+"⟩]⟩,
    dataSetElements := some [⟨⟨"dsA"⟩⟩] }

/-- The spec's one-element scenario export. -/
def scenarioExport : Dhis2Export := ⟨[deTX]⟩

/-- Two indicators sharing one disaggregate and one collection. -/
def sharedDisagExport : Dhis2Export := ⟨[deTX, deHTS]⟩

/-- A data element lacking its `code` key. -/
def deNoCode : DataElement :=
  { id := "x", code := none, name := "n", shortName := "s", description := none,
    categoryCombo := some ⟨[]⟩, dataSetElements := some [] }

/-- `deTX` with one extra dataset-element link to the unmapped dataset
`dsX`. -/
def deTXextra : DataElement :=
  { deTX with dataSetElements := some [⟨⟨"dsA"⟩⟩, ⟨⟨"dsX"⟩⟩] }

/-- Export containing a dataset-element link whose dataset id `dsX` is not
in `sampleRepos`. -/
def unknownDsExport : Dhis2Export := ⟨[deTXextra]⟩

/-- An I-MAP row carrying all nine required fields. -/
def goodImapRow : ImapRow :=
  [("DATIM_Indicator_Category", "HTS_TST"),
   ("DATIM_Indicator_ID", "HTS_TST_N_MOH"),
   ("DATIM_Disag_ID", "HllvX50cXC0"),
   ("DATIM_Disag_Name", "default"),
   ("Operation", "ADD"),
   ("MOH_Indicator_ID", "IND1"),
   ("MOH_Indicator_Name", "Tested"),
   ("MOH_Disag_ID", "D1"),
   ("MOH_Disag_Name", "15+")]

/-- An I-MAP row lacking `DATIM_Disag_ID` (the first two fields present, so
the scan reports the third). -/
def badImapRow : ImapRow :=
  [("DATIM_Indicator_Category", "HTS_TST"),
   ("DATIM_Indicator_ID", "HTS_TST_N_MOH")]

/-- The result of running the transformer on the one-element scenario
export (falling back to the empty snapshot on error; the run succeeds). -/
def scenarioRun : MerDiff × MerCounts :=
  match dhis2diff_mer sampleRepos emptyMerDiff scenarioExport with
  | .ok st => st
  | .error _ => (emptyMerDiff, zeroMerCounts)

/-- The result of running the transformer on the shared-disaggregate
export. -/
def sharedRun : MerDiff × MerCounts :=
  match dhis2diff_mer sampleRepos emptyMerDiff sharedDisagExport with
  | .ok st => st
  | .error _ => (emptyMerDiff, zeroMerCounts)

/-- A snapshot already holding the `Age_15+` disaggregate reference in
`COL1`, used to exhibit reference-deduplication. -/
def dedupDiff : MerDiff :=
  ⟨[], [], [get_concept_reference_json "PEPFAR" "COL1" (merConceptUrl "Age_15+")]⟩

/-! ## Lemmas about the Python dict model -/

theorem dictLookup_insert_self {α : Type} (d : List (String × α)) (k : String) (v : α) :
    dictLookup (dictInsert d k v) k = some v := by
  induction d with
  | nil => simp [dictInsert, dictLookup]
  | cons p rest ih =>
    obtain ⟨k', v'⟩ := p
    by_cases h : k' = k
    · simp [dictInsert, dictLookup, h]
    · simp only [dictInsert, dictLookup, beq_iff_eq, h, if_false]
      exact ih

theorem dictLookup_insert_ne {α : Type} (d : List (String × α)) (k k' : String) (v : α)
    (h : k' ≠ k) : dictLookup (dictInsert d k v) k' = dictLookup d k' := by
  induction d with
  | nil => simp [dictInsert, dictLookup, Ne.symm h]
  | cons p rest ih =>
    obtain ⟨k₀, v₀⟩ := p
    by_cases h₀ : k₀ = k
    · subst h₀
      simp [dictInsert, dictLookup, Ne.symm h]
    · simp only [dictInsert, dictLookup, beq_iff_eq, h₀, if_false]
      by_cases h₁ : k₀ = k'
      · simp [h₁]
      · simp [h₁, ih]

theorem dictContains_iff_mem_keys {α : Type} (d : List (String × α)) (k : String) :
    dictContains d k = true ↔ k ∈ dictKeys d := by
  induction d with
  | nil => simp [dictContains, dictLookup, dictKeys]
  | cons p rest ih =>
    obtain ⟨k', v'⟩ := p
    by_cases h : k' = k
    · simp [dictContains, dictLookup, dictKeys, h]
    · simp only [dictContains, dictLookup, beq_iff_eq, h, if_false, dictKeys,
        List.map_cons, List.mem_cons]
      rw [← dictKeys]
      constructor
      · intro hh
        exact Or.inr ((ih).mp hh)
      · intro hh
        rcases hh with hh | hh
        · exact absurd hh.symm h
        · exact (ih).mpr hh

theorem dictKeys_insert_of_contains {α : Type} (d : List (String × α)) (k : String) (v : α)
    (h : dictContains d k = true) : dictKeys (dictInsert d k v) = dictKeys d := by
  induction d with
  | nil => simp [dictContains, dictLookup] at h
  | cons p rest ih =>
    obtain ⟨k', v'⟩ := p
    by_cases h₀ : k' = k
    · simp [dictInsert, dictKeys, h₀]
    · simp only [dictContains, dictLookup, beq_iff_eq, h₀, if_false] at h
      simp only [dictInsert, beq_iff_eq, h₀, if_false, dictKeys, List.map_cons]
      rw [← dictKeys, ← dictKeys, ih h]

theorem dictKeys_insert_of_not_contains {α : Type} (d : List (String × α)) (k : String) (v : α)
    (h : dictContains d k = false) : dictKeys (dictInsert d k v) = dictKeys d ++ [k] := by
  induction d with
  | nil => simp [dictInsert, dictKeys]
  | cons p rest ih =>
    obtain ⟨k', v'⟩ := p
    by_cases h₀ : k' = k
    · simp [dictContains, dictLookup, h₀] at h
    · simp only [dictContains, dictLookup, beq_iff_eq, h₀, if_false] at h
      simp only [dictInsert, beq_iff_eq, h₀, if_false, dictKeys, List.map_cons]
      rw [← dictKeys, ← dictKeys, ih h]
      simp

theorem dictLookup_isSome_of_mem_keys {α : Type} (d : List (String × α)) (k : String)
    (h : k ∈ dictKeys d) : (dictLookup d k).isSome = true := by
  rw [← dictContains_iff_mem_keys] at h
  exact h

theorem dictContains_insert {α : Type} (d : List (String × α)) (k k' : String) (v : α)
    (h : dictContains d k' = true) : dictContains (dictInsert d k v) k' = true := by
  by_cases hk : k' = k
  · subst hk
    simp [dictContains, dictLookup_insert_self]
  · simpa [dictContains, dictLookup_insert_ne d k k' v hk] using h

theorem dictContains_insert_self {α : Type} (d : List (String × α)) (k : String) (v : α) :
    dictContains (dictInsert d k v) k = true := by
  simp [dictContains, dictLookup_insert_self]

/-- Two key-distinct association lists with the same key sequence and the
same lookup function are equal. -/
theorem dict_ext {α : Type} : ∀ (d₁ d₂ : List (String × α)),
    (dictKeys d₁).Nodup → dictKeys d₁ = dictKeys d₂ →
    (∀ k, dictLookup d₁ k = dictLookup d₂ k) → d₁ = d₂ := by
  intro d₁
  induction d₁ with
  | nil =>
    intro d₂ _ hkeys _
    cases d₂ with
    | nil => rfl
    | cons p rest => simp [dictKeys] at hkeys
  | cons p rest ih =>
    intro d₂ hnd hkeys hlook
    obtain ⟨k, v⟩ := p
    cases d₂ with
    | nil => simp [dictKeys] at hkeys
    | cons q rest₂ =>
      obtain ⟨k₂, v₂⟩ := q
      simp only [dictKeys, List.map_cons, List.cons.injEq] at hkeys
      obtain ⟨hk, htl⟩ := hkeys
      subst hk
      have hv : some v = some v₂ := by
        have := hlook k
        simpa [dictLookup] using this
      have hv' : v = v₂ := Option.some.inj hv
      subst hv'
      simp only [dictKeys, List.map_cons, List.nodup_cons] at hnd
      have hrest : rest = rest₂ := by
        apply ih rest₂ hnd.2 htl
        intro k'
        by_cases hk' : k = k'
        · subst hk'
          have h₁ : dictLookup rest k = none := by
            cases hres : dictLookup rest k with
            | none => rfl
            | some w =>
              exfalso
              apply hnd.1
              rw [← dictKeys] at *
              have : dictContains rest k = true := by
                simp [dictContains, hres]
              exact (dictContains_iff_mem_keys rest k).mp this
          have h₂ : dictLookup rest₂ k = none := by
            cases hres : dictLookup rest₂ k with
            | none => rfl
            | some w =>
              exfalso
              apply hnd.1
              rw [← dictKeys] at *
              rw [htl]
              have : dictContains rest₂ k = true := by
                simp [dictContains, hres]
              exact (dictContains_iff_mem_keys rest₂ k).mp this
          rw [h₁, h₂]
        · have := hlook k'
          simpa [dictLookup, hk'] using this
      rw [hrest]

theorem dictKeys_nodup_insert {α : Type} (d : List (String × α)) (k : String) (v : α)
    (h : (dictKeys d).Nodup) : (dictKeys (dictInsert d k v)).Nodup := by
  cases hc : dictContains d k with
  | true => rw [dictKeys_insert_of_contains d k v hc]; exact h
  | false =>
    rw [dictKeys_insert_of_not_contains d k v hc]
    rw [List.nodup_append]
    refine ⟨h, List.nodup_singleton k, ?_⟩
    intro a ha hb
    simp only [List.mem_singleton] at hb
    subst hb
    rw [← dictContains_iff_mem_keys] at ha
    rw [ha] at hc
    exact Bool.true_eq_false.mp hc

/-- Membership in an updated dict: every entry is the new pair or an old entry. -/
theorem mem_dictInsert {α : Type} (d : List (String × α)) (k : String) (v : α) (p : String × α)
    (h : p ∈ dictInsert d k v) : p = (k, v) ∨ p ∈ d := by
  induction d with
  | nil => simpa [dictInsert] using h
  | cons q rest ih =>
    obtain ⟨k', v'⟩ := q
    by_cases h₀ : k' = k
    · simp only [dictInsert, beq_iff_eq, h₀, if_true, List.mem_cons] at h
      rcases h with h | h
      · exact Or.inl h
      · exact Or.inr (List.mem_cons_of_mem _ h)
    · simp only [dictInsert, beq_iff_eq, h₀, if_false, List.mem_cons] at h
      rcases h with h | h
      · exact Or.inr (by simp [h])
      · rcases ih h with h' | h'
        · exact Or.inl h'
        · exact Or.inr (List.mem_cons_of_mem _ h')

/-- A key appears exactly once among the entries of a key-distinct dict
containing it. -/
theorem countP_key_eq_one {α : Type} (d : List (String × α)) (k : String)
    (hnd : (dictKeys d).Nodup) (h : k ∈ dictKeys d) :
    d.countP (fun p => p.1 == k) = 1 := by
  induction d with
  | nil => simp [dictKeys] at h
  | cons p rest ih =>
    obtain ⟨k', v'⟩ := p
    simp only [dictKeys, List.map_cons, List.nodup_cons] at hnd
    rw [← dictKeys] at hnd
    simp only [dictKeys, List.map_cons, List.mem_cons] at h
    rw [← dictKeys] at h
    by_cases hk : k' = k
    · subst hk
      rw [List.countP_cons]
      simp only [beq_self_eq_true, if_true]
      have : rest.countP (fun p => p.1 == k') = 0 := by
        rw [List.countP_eq_zero]
        intro q hq
        simp only [beq_iff_eq]
        intro heq
        apply hnd.1
        rw [← heq]
        exact List.mem_map_of_mem (fun p => p.1) hq
      omega
    · rcases h with h | h
      · exact absurd h.symm hk
      · rw [List.countP_cons]
        simp only [beq_iff_eq, hk, if_false]
        exact ih hnd.2 h

/-! ## Injectivity of the canonical resource keys -/

theorem strData_append (s t : String) : (s ++ t).data = s.data ++ t.data := rfl

theorem amp_cancel : ∀ (x₁ x₂ z₁ z₂ : List Char),
    x₁ ++ '&' :: z₁ = x₂ ++ '&' :: z₂ →
    (∀ a ∈ x₁, a ≠ '&') → (∀ a ∈ x₂, a ≠ '&') → x₁ = x₂ ∧ z₁ = z₂ := by
  intro x₁
  induction x₁ with
  | nil =>
    intro x₂ z₁ z₂ h h₁ h₂
    cases x₂ with
    | nil => simpa using h
    | cons b t₂ =>
      exfalso
      simp only [List.nil_append, List.cons_append, List.cons.injEq] at h
      exact h₂ b (by simp) h.1.symm
  | cons a t₁ ih =>
    intro x₂ z₁ z₂ h h₁ h₂
    cases x₂ with
    | nil =>
      exfalso
      simp only [List.nil_append, List.cons_append, List.cons.injEq] at h
      exact h₁ a (by simp) h.1
    | cons b t₂ =>
      simp only [List.cons_append, List.cons.injEq] at h
      obtain ⟨hab, ht⟩ := h
      subst hab
      have := ih t₂ z₁ z₂ ht (fun c hc => h₁ c (List.mem_cons_of_mem _ hc))
        (fun c hc => h₂ c (List.mem_cons_of_mem _ hc))
      exact ⟨by rw [this.1], this.2⟩

theorem merConceptUrl_inj (a b : String) (h : merConceptUrl a = merConceptUrl b) :
    a = b := by
  have hd := congrArg String.data h
  simp only [merConceptUrl, strData_append, List.append_assoc] at hd
  replace hd := List.append_cancel_left hd
  replace hd := List.append_cancel_right hd
  exact String.ext hd

theorem merMappingKey_from_inj (d₁ d₂ t : String)
    (h : merMappingKey (merConceptUrl d₁) "Has Option" t =
         merMappingKey (merConceptUrl d₂) "Has Option" t) : d₁ = d₂ := by
  have hd := congrArg String.data h
  simp only [merMappingKey, merConceptUrl, strData_append, List.append_assoc] at hd
  replace hd := List.append_cancel_left hd
  replace hd := List.append_cancel_left hd
  replace hd := List.append_cancel_right hd
  exact String.ext hd

theorem merMappingKey_to_inj (f c₁ c₂ : String)
    (h : merMappingKey f "Has Option" (merConceptUrl c₁) =
         merMappingKey f "Has Option" (merConceptUrl c₂)) : c₁ = c₂ := by
  have hd := congrArg String.data h
  simp only [merMappingKey, merConceptUrl, strData_append, List.append_assoc] at hd
  replace hd := List.append_cancel_left hd
  replace hd := List.append_cancel_left hd
  replace hd := List.append_cancel_left hd
  replace hd := List.append_cancel_left hd
  replace hd := List.append_cancel_left hd
  replace hd := List.append_cancel_left hd
  replace hd := List.append_cancel_right hd
  exact String.ext hd

theorem merMappingKey_inj_ampFree (d₁ d₂ c₁ c₂ : String)
    (hf₁ : ampFree d₁ = true) (hf₂ : ampFree d₂ = true)
    (h : merMappingKey (merConceptUrl d₁) "Has Option" (merConceptUrl c₁) =
         merMappingKey (merConceptUrl d₂) "Has Option" (merConceptUrl c₂)) :
    d₁ = d₂ ∧ c₁ = c₂ := by
  have hd := congrArg String.data h
  simp only [merMappingKey, merConceptUrl, strData_append, List.append_assoc,
    List.cons_append, List.nil_append] at hd
  simp only [List.cons.injEq, true_and] at hd
  have key : ∀ (x : List Char) (y : List Char), x ++ '/' :: y = (x ++ ['/']) ++ y := by
    intro x y; simp
  rw [key d₁.data, key d₂.data] at hd
  have hx₁ : ∀ a ∈ d₁.data ++ ['/'], a ≠ '&' := by
    intro a ha
    rcases List.mem_append.mp ha with ha | ha
    · simp only [ampFree, List.all_eq_true] at hf₁
      simpa using hf₁ a ha
    · simp only [List.mem_singleton] at ha
      subst ha
      decide
  have hx₂ : ∀ a ∈ d₂.data ++ ['/'], a ≠ '&' := by
    intro a ha
    rcases List.mem_append.mp ha with ha | ha
    · simp only [ampFree, List.all_eq_true] at hf₂
      simpa using hf₂ a ha
    · simp only [List.mem_singleton] at ha
      subst ha
      decide
  obtain ⟨hpre, hrest⟩ := amp_cancel _ _ _ _ hd hx₁ hx₂
  constructor
  · exact String.ext (List.append_cancel_right hpre)
  · simp only [List.cons.injEq, true_and] at hrest
    exact String.ext (List.append_cancel_right hrest)

/-! ## Structural lemmas about the coc loop -/

theorem processCoc_refs (u : String) (diff : MerDiff) (counts : MerCounts)
    (urls : List String) (coc : CategoryOptionCombo) :
    (processCoc u (diff, counts, urls) coc).1.concept_refs = diff.concept_refs := by
  by_cases h : dictContains diff.concepts (merConceptUrl coc.code)
  · simp [processCoc, h]
  · simp [processCoc, h]

theorem processCoc_urls (u : String) (diff : MerDiff) (counts : MerCounts)
    (urls : List String) (coc : CategoryOptionCombo) :
    (processCoc u (diff, counts, urls) coc).2.2 = urls ++ [merConceptUrl coc.code] := by
  by_cases h : dictContains diff.concepts (merConceptUrl coc.code)
  · simp [processCoc, h]
  · simp [processCoc, h]

theorem processCoc_mono_concepts (u : String) (diff : MerDiff) (counts : MerCounts)
    (urls : List String) (coc : CategoryOptionCombo) (k : String)
    (hk : dictContains diff.concepts k = true) :
    dictContains (processCoc u (diff, counts, urls) coc).1.concepts k = true := by
  by_cases h : dictContains diff.concepts (merConceptUrl coc.code)
  · simpa [processCoc, h] using hk
  · simp only [processCoc, h]
    simpa using dictContains_insert _ _ _ _ hk

theorem processCoc_mono_mappings (u : String) (diff : MerDiff) (counts : MerCounts)
    (urls : List String) (coc : CategoryOptionCombo) (k : String)
    (hk : dictContains diff.mappings k = true) :
    dictContains (processCoc u (diff, counts, urls) coc).1.mappings k = true := by
  by_cases h : dictContains diff.concepts (merConceptUrl coc.code)
  · simp only [processCoc, h]
    simpa using dictContains_insert _ _ _ _ hk
  · simp only [processCoc, h]
    simpa using dictContains_insert _ _ _ _ hk

theorem processCocList_refs (u : String) :
    ∀ (cocs : List CategoryOptionCombo) (diff : MerDiff) (counts : MerCounts)
      (urls : List String),
    (processCocList u (diff, counts, urls) cocs).1.concept_refs = diff.concept_refs := by
  intro cocs
  induction cocs with
  | nil => intro diff counts urls; rfl
  | cons coc rest ih =>
    intro diff counts urls
    simp only [processCocList]
    rcases hpc : processCoc u (diff, counts, urls) coc with ⟨d₁, c₁, u₁⟩
    rw [ih d₁ c₁ u₁]
    have := processCoc_refs u diff counts urls coc
    rw [hpc] at this
    exact this

theorem processCocList_urls (u : String) :
    ∀ (cocs : List CategoryOptionCombo) (diff : MerDiff) (counts : MerCounts)
      (urls : List String),
    (processCocList u (diff, counts, urls) cocs).2.2 =
      urls ++ cocs.map (fun coc => merConceptUrl coc.code) := by
  intro cocs
  induction cocs with
  | nil => intro diff counts urls; simp [processCocList]
  | cons coc rest ih =>
    intro diff counts urls
    simp only [processCocList]
    rcases hpc : processCoc u (diff, counts, urls) coc with ⟨d₁, c₁, u₁⟩
    rw [ih d₁ c₁ u₁]
    have := processCoc_urls u diff counts urls coc
    rw [hpc] at this
    simp only at this
    rw [this]
    simp

theorem processCocList_mono_concepts (u : String) :
    ∀ (cocs : List CategoryOptionCombo) (diff : MerDiff) (counts : MerCounts)
      (urls : List String) (k : String),
    dictContains diff.concepts k = true →
    dictContains (processCocList u (diff, counts, urls) cocs).1.concepts k = true := by
  intro cocs
  induction cocs with
  | nil => intro diff counts urls k hk; exact hk
  | cons coc rest ih =>
    intro diff counts urls k hk
    simp only [processCocList]
    rcases hpc : processCoc u (diff, counts, urls) coc with ⟨d₁, c₁, u₁⟩
    apply ih d₁ c₁ u₁ k
    have := processCoc_mono_concepts u diff counts urls coc k hk
    rw [hpc] at this
    exact this

theorem processCocList_mono_mappings (u : String) :
    ∀ (cocs : List CategoryOptionCombo) (diff : MerDiff) (counts : MerCounts)
      (urls : List String) (k : String),
    dictContains diff.mappings k = true →
    dictContains (processCocList u (diff, counts, urls) cocs).1.mappings k = true := by
  intro cocs
  induction cocs with
  | nil => intro diff counts urls k hk; exact hk
  | cons coc rest ih =>
    intro diff counts urls k hk
    simp only [processCocList]
    rcases hpc : processCoc u (diff, counts, urls) coc with ⟨d₁, c₁, u₁⟩
    apply ih d₁ c₁ u₁ k
    have := processCoc_mono_mappings u diff counts urls coc k hk
    rw [hpc] at this
    exact this

/-! ## Structural lemmas about the dataset loop -/

theorem addDisaggregateRef_concepts (col : String) (diff : MerDiff) (counts : MerCounts)
    (url : String) :
    (addDisaggregateRef col (diff, counts) url).1.concepts = diff.concepts := by
  by_cases h : dictContains diff.concept_refs
      (get_concept_reference_json "PEPFAR" col url).1
  · simp [addDisaggregateRef, h]
  · simp [addDisaggregateRef, h]

theorem addDisaggregateRef_mappings (col : String) (diff : MerDiff) (counts : MerCounts)
    (url : String) :
    (addDisaggregateRef col (diff, counts) url).1.mappings = diff.mappings := by
  by_cases h : dictContains diff.concept_refs
      (get_concept_reference_json "PEPFAR" col url).1
  · simp [addDisaggregateRef, h]
  · simp [addDisaggregateRef, h]

theorem addDisaggregateRef_mono_refs (col : String) (diff : MerDiff) (counts : MerCounts)
    (url : String) (k : String) (hk : dictContains diff.concept_refs k = true) :
    dictContains (addDisaggregateRef col (diff, counts) url).1.concept_refs k = true := by
  by_cases h : dictContains diff.concept_refs
      (get_concept_reference_json "PEPFAR" col url).1
  · simpa [addDisaggregateRef, h] using hk
  · simp only [addDisaggregateRef, h]
    simpa using dictContains_insert _ _ _ _ hk

theorem foldAddRef_concepts (col : String) :
    ∀ (urls : List String) (diff : MerDiff) (counts : MerCounts),
    (urls.foldl (addDisaggregateRef col) (diff, counts)).1.concepts = diff.concepts := by
  intro urls
  induction urls with
  | nil => intro diff counts; rfl
  | cons url rest ih =>
    intro diff counts
    simp only [List.foldl_cons]
    rcases har : addDisaggregateRef col (diff, counts) url with ⟨d₁, c₁⟩
    rw [ih d₁ c₁]
    have := addDisaggregateRef_concepts col diff counts url
    rw [har] at this
    exact this

theorem foldAddRef_mappings (col : String) :
    ∀ (urls : List String) (diff : MerDiff) (counts : MerCounts),
    (urls.foldl (addDisaggregateRef col) (diff, counts)).1.mappings = diff.mappings := by
  intro urls
  induction urls with
  | nil => intro diff counts; rfl
  | cons url rest ih =>
    intro diff counts
    simp only [List.foldl_cons]
    rcases har : addDisaggregateRef col (diff, counts) url with ⟨d₁, c₁⟩
    rw [ih d₁ c₁]
    have := addDisaggregateRef_mappings col diff counts url
    rw [har] at this
    exact this

theorem foldAddRef_mono_refs (col : String) :
    ∀ (urls : List String) (diff : MerDiff) (counts : MerCounts) (k : String),
    dictContains diff.concept_refs k = true →
    dictContains (urls.foldl (addDisaggregateRef col) (diff, counts)).1.concept_refs k
      = true := by
  intro urls
  induction urls with
  | nil => intro diff counts k hk; exact hk
  | cons url rest ih =>
    intro diff counts k hk
    simp only [List.foldl_cons]
    rcases har : addDisaggregateRef col (diff, counts) url with ⟨d₁, c₁⟩
    apply ih d₁ c₁ k
    have := addDisaggregateRef_mono_refs col diff counts url k hk
    rw [har] at this
    exact this

theorem processDse_concepts (repos : List (String × String)) (u : String)
    (urls : List String) (diff : MerDiff) (counts : MerCounts) (dse : DataSetElement) :
    (processDse repos u urls (diff, counts) dse).1.concepts = diff.concepts := by
  cases h : dictLookup repos dse.dataSet.id with
  | none => simp [processDse, h]
  | some col =>
    simp only [processDse, h]
    exact foldAddRef_concepts col urls _ _

theorem processDse_mappings (repos : List (String × String)) (u : String)
    (urls : List String) (diff : MerDiff) (counts : MerCounts) (dse : DataSetElement) :
    (processDse repos u urls (diff, counts) dse).1.mappings = diff.mappings := by
  cases h : dictLookup repos dse.dataSet.id with
  | none => simp [processDse, h]
  | some col =>
    simp only [processDse, h]
    exact foldAddRef_mappings col urls _ _

theorem processDse_mono_refs (repos : List (String × String)) (u : String)
    (urls : List String) (diff : MerDiff) (counts : MerCounts) (dse : DataSetElement)
    (k : String) (hk : dictContains diff.concept_refs k = true) :
    dictContains (processDse repos u urls (diff, counts) dse).1.concept_refs k = true := by
  cases h : dictLookup repos dse.dataSet.id with
  | none => simpa [processDse, h] using hk
  | some col =>
    simp only [processDse, h]
    apply foldAddRef_mono_refs col urls _ _ k
    simpa using dictContains_insert _ _ _ _ hk

theorem processDseList_concepts (repos : List (String × String)) (u : String)
    (urls : List String) :
    ∀ (dses : List DataSetElement) (diff : MerDiff) (counts : MerCounts),
    (processDseList repos u urls (diff, counts) dses).1.concepts = diff.concepts := by
  intro dses
  induction dses with
  | nil => intro diff counts; rfl
  | cons dse rest ih =>
    intro diff counts
    simp only [processDseList]
    rcases hd : processDse repos u urls (diff, counts) dse with ⟨d₁, c₁⟩
    rw [ih d₁ c₁]
    have := processDse_concepts repos u urls diff counts dse
    rw [hd] at this
    exact this

theorem processDseList_mappings (repos : List (String × String)) (u : String)
    (urls : List String) :
    ∀ (dses : List DataSetElement) (diff : MerDiff) (counts : MerCounts),
    (processDseList repos u urls (diff, counts) dses).1.mappings = diff.mappings := by
  intro dses
  induction dses with
  | nil => intro diff counts; rfl
  | cons dse rest ih =>
    intro diff counts
    simp only [processDseList]
    rcases hd : processDse repos u urls (diff, counts) dse with ⟨d₁, c₁⟩
    rw [ih d₁ c₁]
    have := processDse_mappings repos u urls diff counts dse
    rw [hd] at this
    exact this

theorem processDseList_mono_refs (repos : List (String × String)) (u : String)
    (urls : List String) :
    ∀ (dses : List DataSetElement) (diff : MerDiff) (counts : MerCounts) (k : String),
    dictContains diff.concept_refs k = true →
    dictContains (processDseList repos u urls (diff, counts) dses).1.concept_refs k
      = true := by
  intro dses
  induction dses with
  | nil => intro diff counts k hk; exact hk
  | cons dse rest ih =>
    intro diff counts k hk
    simp only [processDseList]
    rcases hd : processDse repos u urls (diff, counts) dse with ⟨d₁, c₁⟩
    apply ih d₁ c₁ k
    have := processDse_mono_refs repos u urls diff counts dse k hk
    rw [hd] at this
    exact this

/-! ## Inversion of one data-element step -/

theorem processDataElement_parts (repos : List (String × String))
    (st : MerDiff × MerCounts) (de : DataElement) (st' : MerDiff × MerCounts)
    (h : processDataElement repos st de = .ok st') :
    ∃ d cc dses diff₂ counts₂ urls,
      de.code = some d ∧ de.categoryCombo = some cc ∧ de.dataSetElements = some dses ∧
      processCocList (merConceptUrl d)
        ({ st.1 with concepts := dictInsert st.1.concepts (merConceptUrl d) (mkIndicatorConcept d de) },
         { st.2 with num_indicators := st.2.num_indicators + 1 }, ([] : List String))
        cc.categoryOptionCombos = (diff₂, counts₂, urls) ∧
      urls = cc.categoryOptionCombos.map (fun coc => merConceptUrl coc.code) ∧
      st' = processDseList repos (merConceptUrl d) urls (diff₂, counts₂) dses := by
  cases hcode : de.code with
  | none => simp [processDataElement, hcode] at h
  | some d =>
    cases hcc : de.categoryCombo with
    | none => simp [processDataElement, hcode, hcc] at h
    | some cc =>
      cases hdse : de.dataSetElements with
      | none => simp [processDataElement, hcode, hcc, hdse] at h
      | some dses =>
        simp only [processDataElement, hcode, hcc, hdse] at h
        rcases hP : processCocList (merConceptUrl d)
            ({ st.1 with concepts := dictInsert st.1.concepts (merConceptUrl d) (mkIndicatorConcept d de) },
             { st.2 with num_indicators := st.2.num_indicators + 1 }, ([] : List String))
            cc.categoryOptionCombos with ⟨diff₂, counts₂, urls⟩
        rw [hP] at h
        simp only [Except.ok.injEq] at h
        refine ⟨d, cc, dses, diff₂, counts₂, urls, rfl, rfl, rfl, hP, ?_, h.symm⟩
        have := processCocList_urls (merConceptUrl d) cc.categoryOptionCombos
          ({ st.1 with concepts := dictInsert st.1.concepts (merConceptUrl d) (mkIndicatorConcept d de) })
          ({ st.2 with num_indicators := st.2.num_indicators + 1 }) []
        rw [hP] at this
        simpa using this

/-! ## Monotonicity of key containment along a run -/

theorem processDataElement_mono_concepts (repos : List (String × String))
    (st : MerDiff × MerCounts) (de : DataElement) (st' : MerDiff × MerCounts) (k : String)
    (h : processDataElement repos st de = .ok st')
    (hk : dictContains st.1.concepts k = true) :
    dictContains st'.1.concepts k = true := by
  obtain ⟨d, cc, dses, diff₂, counts₂, urls, hcode, hcc, hdse, hP, hurls, hst'⟩ :=
    processDataElement_parts repos st de st' h
  subst hst'
  rw [processDseList_concepts]
  have h1 := dictContains_insert st.1.concepts (merConceptUrl d) k
    (mkIndicatorConcept d de) hk
  have h2 := processCocList_mono_concepts (merConceptUrl d) cc.categoryOptionCombos
    { st.1 with concepts := dictInsert st.1.concepts (merConceptUrl d) (mkIndicatorConcept d de) }
    { st.2 with num_indicators := st.2.num_indicators + 1 } [] k h1
  rw [hP] at h2
  exact h2

theorem processDataElement_mono_mappings (repos : List (String × String))
    (st : MerDiff × MerCounts) (de : DataElement) (st' : MerDiff × MerCounts) (k : String)
    (h : processDataElement repos st de = .ok st')
    (hk : dictContains st.1.mappings k = true) :
    dictContains st'.1.mappings k = true := by
  obtain ⟨d, cc, dses, diff₂, counts₂, urls, hcode, hcc, hdse, hP, hurls, hst'⟩ :=
    processDataElement_parts repos st de st' h
  subst hst'
  rw [processDseList_mappings]
  have h2 := processCocList_mono_mappings (merConceptUrl d) cc.categoryOptionCombos
    { st.1 with concepts := dictInsert st.1.concepts (merConceptUrl d) (mkIndicatorConcept d de) }
    { st.2 with num_indicators := st.2.num_indicators + 1 } [] k hk
  rw [hP] at h2
  exact h2

theorem processDataElement_mono_refs (repos : List (String × String))
    (st : MerDiff × MerCounts) (de : DataElement) (st' : MerDiff × MerCounts) (k : String)
    (h : processDataElement repos st de = .ok st')
    (hk : dictContains st.1.concept_refs k = true) :
    dictContains st'.1.concept_refs k = true := by
  obtain ⟨d, cc, dses, diff₂, counts₂, urls, hcode, hcc, hdse, hP, hurls, hst'⟩ :=
    processDataElement_parts repos st de st' h
  subst hst'
  apply processDseList_mono_refs repos (merConceptUrl d) urls dses diff₂ counts₂ k
  have h2 := processCocList_refs (merConceptUrl d) cc.categoryOptionCombos
    { st.1 with concepts := dictInsert st.1.concepts (merConceptUrl d) (mkIndicatorConcept d de) }
    { st.2 with num_indicators := st.2.num_indicators + 1 } []
  rw [hP] at h2
  simp only at h2
  rw [h2]
  exact hk

theorem processElements_mono_concepts (repos : List (String × String)) :
    ∀ (des : List DataElement) (st st' : MerDiff × MerCounts) (k : String),
    processElements repos st des = .ok st' →
    dictContains st.1.concepts k = true → dictContains st'.1.concepts k = true := by
  intro des
  induction des with
  | nil =>
    intro st st' k h hk
    simp only [processElements, Except.ok.injEq] at h
    rw [← h]
    exact hk
  | cons de rest ih =>
    intro st st' k h hk
    simp only [processElements] at h
    cases hde : processDataElement repos st de with
    | error e => rw [hde] at h; exact absurd h (by simp)
    | ok st₁ =>
      rw [hde] at h
      exact ih st₁ st' k h (processDataElement_mono_concepts repos st de st₁ k hde hk)

theorem processElements_mono_mappings (repos : List (String × String)) :
    ∀ (des : List DataElement) (st st' : MerDiff × MerCounts) (k : String),
    processElements repos st des = .ok st' →
    dictContains st.1.mappings k = true → dictContains st'.1.mappings k = true := by
  intro des
  induction des with
  | nil =>
    intro st st' k h hk
    simp only [processElements, Except.ok.injEq] at h
    rw [← h]
    exact hk
  | cons de rest ih =>
    intro st st' k h hk
    simp only [processElements] at h
    cases hde : processDataElement repos st de with
    | error e => rw [hde] at h; exact absurd h (by simp)
    | ok st₁ =>
      rw [hde] at h
      exact ih st₁ st' k h (processDataElement_mono_mappings repos st de st₁ k hde hk)

theorem processElements_mono_refs (repos : List (String × String)) :
    ∀ (des : List DataElement) (st st' : MerDiff × MerCounts) (k : String),
    processElements repos st des = .ok st' →
    dictContains st.1.concept_refs k = true →
    dictContains st'.1.concept_refs k = true := by
  intro des
  induction des with
  | nil =>
    intro st st' k h hk
    simp only [processElements, Except.ok.injEq] at h
    rw [← h]
    exact hk
  | cons de rest ih =>
    intro st st' k h hk
    simp only [processElements] at h
    cases hde : processDataElement repos st de with
    | error e => rw [hde] at h; exact absurd h (by simp)
    | ok st₁ =>
      rw [hde] at h
      exact ih st₁ st' k h (processDataElement_mono_refs repos st de st₁ k hde hk)

/-! ## Key distinctness is preserved along a run -/

theorem processCoc_nodup (u : String) (diff : MerDiff) (counts : MerCounts)
    (urls : List String) (coc : CategoryOptionCombo) (h : NodupMer diff) :
    NodupMer (processCoc u (diff, counts, urls) coc).1 := by
  obtain ⟨h1, h2, h3⟩ := h
  by_cases hc : dictContains diff.concepts (merConceptUrl coc.code)
  · simp only [processCoc, hc, if_true]
    exact ⟨h1, dictKeys_nodup_insert _ _ _ h2, h3⟩
  · simp only [processCoc, hc, if_false]
    exact ⟨dictKeys_nodup_insert _ _ _ h1, dictKeys_nodup_insert _ _ _ h2, h3⟩

theorem processCocList_nodup (u : String) :
    ∀ (cocs : List CategoryOptionCombo) (diff : MerDiff) (counts : MerCounts)
      (urls : List String), NodupMer diff →
    NodupMer (processCocList u (diff, counts, urls) cocs).1 := by
  intro cocs
  induction cocs with
  | nil => intro diff counts urls h; exact h
  | cons coc rest ih =>
    intro diff counts urls h
    simp only [processCocList]
    rcases hpc : processCoc u (diff, counts, urls) coc with ⟨d₁, c₁, u₁⟩
    apply ih d₁ c₁ u₁
    have := processCoc_nodup u diff counts urls coc h
    rw [hpc] at this
    exact this

theorem addDisaggregateRef_nodup (col : String) (diff : MerDiff) (counts : MerCounts)
    (url : String) (h : NodupMer diff) :
    NodupMer (addDisaggregateRef col (diff, counts) url).1 := by
  obtain ⟨h1, h2, h3⟩ := h
  by_cases hc : dictContains diff.concept_refs
      (get_concept_reference_json "PEPFAR" col url).1
  · simp only [addDisaggregateRef, hc, if_true]
    exact ⟨h1, h2, h3⟩
  · simp only [addDisaggregateRef, hc, if_false]
    exact ⟨h1, h2, dictKeys_nodup_insert _ _ _ h3⟩

theorem foldAddRef_nodup (col : String) :
    ∀ (urls : List String) (diff : MerDiff) (counts : MerCounts), NodupMer diff →
    NodupMer ((urls.foldl (addDisaggregateRef col) (diff, counts))).1 := by
  intro urls
  induction urls with
  | nil => intro diff counts h; exact h
  | cons url rest ih =>
    intro diff counts h
    simp only [List.foldl_cons]
    rcases har : addDisaggregateRef col (diff, counts) url with ⟨d₁, c₁⟩
    apply ih d₁ c₁
    have := addDisaggregateRef_nodup col diff counts url h
    rw [har] at this
    exact this

theorem processDse_nodup (repos : List (String × String)) (u : String)
    (urls : List String) (diff : MerDiff) (counts : MerCounts) (dse : DataSetElement)
    (h : NodupMer diff) :
    NodupMer (processDse repos u urls (diff, counts) dse).1 := by
  cases hl : dictLookup repos dse.dataSet.id with
  | none => simpa [processDse, hl] using h
  | some col =>
    simp only [processDse, hl]
    apply foldAddRef_nodup
    obtain ⟨h1, h2, h3⟩ := h
    exact ⟨h1, h2, dictKeys_nodup_insert _ _ _ h3⟩

theorem processDseList_nodup (repos : List (String × String)) (u : String)
    (urls : List String) :
    ∀ (dses : List DataSetElement) (diff : MerDiff) (counts : MerCounts), NodupMer diff →
    NodupMer (processDseList repos u urls (diff, counts) dses).1 := by
  intro dses
  induction dses with
  | nil => intro diff counts h; exact h
  | cons dse rest ih =>
    intro diff counts h
    simp only [processDseList]
    rcases hd : processDse repos u urls (diff, counts) dse with ⟨d₁, c₁⟩
    apply ih d₁ c₁
    have := processDse_nodup repos u urls diff counts dse h
    rw [hd] at this
    exact this

theorem processDataElement_nodup (repos : List (String × String))
    (st : MerDiff × MerCounts) (de : DataElement) (st' : MerDiff × MerCounts)
    (h : processDataElement repos st de = .ok st') (hn : NodupMer st.1) :
    NodupMer st'.1 := by
  obtain ⟨d, cc, dses, diff₂, counts₂, urls, hcode, hcc, hdse, hP, hurls, hst'⟩ :=
    processDataElement_parts repos st de st' h
  subst hst'
  apply processDseList_nodup
  have hn₁ : NodupMer
      { st.1 with concepts := dictInsert st.1.concepts (merConceptUrl d) (mkIndicatorConcept d de) } :=
    ⟨dictKeys_nodup_insert _ _ _ hn.1, hn.2.1, hn.2.2⟩
  have := processCocList_nodup (merConceptUrl d) cc.categoryOptionCombos
    { st.1 with concepts := dictInsert st.1.concepts (merConceptUrl d) (mkIndicatorConcept d de) }
    { st.2 with num_indicators := st.2.num_indicators + 1 } [] hn₁
  rw [hP] at this
  exact this

theorem processElements_nodup (repos : List (String × String)) :
    ∀ (des : List DataElement) (st st' : MerDiff × MerCounts),
    processElements repos st des = .ok st' → NodupMer st.1 → NodupMer st'.1 := by
  intro des
  induction des with
  | nil =>
    intro st st' h hn
    simp only [processElements, Except.ok.injEq] at h
    rw [← h]
    exact hn
  | cons de rest ih =>
    intro st st' h hn
    simp only [processElements] at h
    cases hde : processDataElement repos st de with
    | error e => rw [hde] at h; exact absurd h (by simp)
    | ok st₁ =>
      rw [hde] at h
      exact ih st₁ st' h (processDataElement_nodup repos st de st₁ hde hn)

/-! ## Lemmas about `DatimImap.is_valid` -/

theorem firstMissingField_none_iff : ∀ (fs : List String) (row : ImapRow),
    firstMissingField fs row = none ↔
      ∀ f ∈ fs, row.any (fun p => p.1 == f) = true := by
  intro fs
  induction fs with
  | nil => intro row; simp [firstMissingField]
  | cons f rest ih =>
    intro row
    by_cases h : row.any (fun p => p.1 == f) = true
    · simp only [firstMissingField, h, if_true, ih row]
      constructor
      · intro hall g hg
        rcases List.mem_cons.mp hg with hg | hg
        · rw [hg]; exact h
        · exact hall g hg
      · intro hall g hg
        exact hall g (List.mem_cons_of_mem _ hg)
    · simp only [firstMissingField, h, if_false]
      constructor
      · intro hcon; exact absurd hcon (by simp)
      · intro hall
        exact absurd (hall f (List.mem_cons_self f rest)) h

theorem isValidRows_ok_true_iff : ∀ (rows : List ImapRow) (n : Nat) (b : Bool),
    isValidRows b rows n = .ok true ↔
      ∀ row ∈ rows, firstMissingField IMAP_FIELD_NAMES row = none := by
  intro rows
  induction rows with
  | nil => intro n b; simp [isValidRows]
  | cons row rest ih =>
    intro n b
    cases hf : firstMissingField IMAP_FIELD_NAMES row with
    | some f =>
      simp only [isValidRows, hf]
      constructor
      · intro h
        cases b with
        | true => exact absurd h (by simp)
        | false => exact absurd h (by simp)
      · intro hall
        have := hall row (List.mem_cons_self row rest)
        rw [hf] at this
        exact absurd this (by simp)
    | none =>
      simp only [isValidRows, hf, ih (n + 1) b]
      constructor
      · intro hall g hg
        rcases List.mem_cons.mp hg with hg | hg
        · rw [hg]; exact hf
        · exact hall g hg
      · intro hall g hg
        exact hall g (List.mem_cons_of_mem _ hg)

theorem isValidRows_error_of_firstBad : ∀ (rows : List ImapRow) (n ln : Nat) (f : String),
    firstBadRow rows n = some (ln, f) →
    isValidRows true rows n =
      .error ("Missing field " ++ f ++ " on row " ++ toString ln ++ " of input file") := by
  intro rows
  induction rows with
  | nil => intro n ln f h; simp [firstBadRow] at h
  | cons row rest ih =>
    intro n ln f h
    cases hf : firstMissingField IMAP_FIELD_NAMES row with
    | some g =>
      simp only [firstBadRow, hf, Option.some.injEq, Prod.mk.injEq] at h
      simp only [isValidRows, hf, if_true]
      rw [← h.1, ← h.2]
    | none =>
      simp only [firstBadRow, hf] at h
      simp only [isValidRows, hf]
      exact ih (n + 1) ln f h

/-! ## The claims -/

/-- Claim C5: the concept-key construction used by the transformer (with
fixed owner `PEPFAR` and source `MER`) is a pure deterministic function of
the concept id, and distinct ids produce distinct keys:
`merConceptUrl a = merConceptUrl b` exactly when `a = b`. -/
theorem claim_c5 : ∀ a b : String, merConceptUrl a = merConceptUrl b ↔ a = b := by
  intro a b
  constructor
  · exact merConceptUrl_inj a b
  · intro h; rw [h]

/-- Claim C8: `is_valid_imap_period` accepts a period string exactly when
it belongs to the allow-list of valid periods; any other string is
rejected, never silently accepted. -/
theorem claim_c8 : ∀ p : String, is_valid_imap_period p = true ↔ p ∈ validImapPeriods := by
  intro p
  simp only [is_valid_imap_period, validImapPeriods]
  by_cases h : p = "FY17"
  · simp [h]
  · simp [h]

/-- Claim C9: constructing a `DatimImap` with `imap_data=None` (or any value
that is neither a `csv.DictReader` nor a list) raises from `set_imap_data`
with the internal imap data still unset (`None`), and every successfully
constructed `DatimImap` holds a list as its imap data. -/
theorem claim_c9 :
    (∀ (cc co p : String) (arg : ImapDataArg),
      arg = ImapDataArg.pyNone ∨ arg = ImapDataArg.otherValue →
      ∃ msg st, DatimImap_init cc co p arg = .error (msg, st) ∧ st.imap_data = none) ∧
    (∀ (cc co p : String) (arg : ImapDataArg) (st : DatimImapState),
      DatimImap_init cc co p arg = .ok st → ∃ rows, st.imap_data = some rows) := by
  constructor
  · intro cc co p arg harg
    rcases harg with h | h
    · subst h
      exact ⟨"Cannot set I-MAP data with None",
        ⟨cc, co, p, none⟩, rfl, rfl⟩
    · subst h
      exact ⟨"Cannot set I-MAP data with that value",
        ⟨cc, co, p, none⟩, rfl, rfl⟩
  · intro cc co p arg st h
    cases arg with
    | dictReader rows =>
      simp only [DatimImap_init, set_imap_data, Except.ok.injEq] at h
      exact ⟨rows, by rw [← h]⟩
    | pyList rows =>
      simp only [DatimImap_init, set_imap_data, Except.ok.injEq] at h
      exact ⟨rows, by rw [← h]⟩
    | pyNone => exact absurd h (by simp [DatimImap_init, set_imap_data])
    | otherValue => exact absurd h (by simp [DatimImap_init, set_imap_data])

/-- Witness for claim C9 at concrete inputs: construction with `None` fails
with the data unset, and construction from an empty list succeeds with a
list stored. -/
theorem claim_c9_witness :
    (∃ msg st, DatimImap_init "RW" "RW-Org" "FY17" ImapDataArg.pyNone =
        .error (msg, st) ∧ st.imap_data = none) ∧
    (∃ rows, (⟨"RW", "RW-Org", "FY17", some []⟩ : DatimImapState).imap_data = some rows) :=
  ⟨claim_c9.1 "RW" "RW-Org" "FY17" ImapDataArg.pyNone (Or.inl rfl),
   claim_c9.2 "RW" "RW-Org" "FY17" (ImapDataArg.pyList [])
     ⟨"RW", "RW-Org", "FY17", some []⟩ rfl⟩

/-- Claim C10: `is_valid` returns `False` (and never raises, even with
`throw_exception_on_error=True`) when the stored imap data is `None` or
empty; it returns `True` exactly when the data is non-empty and every row
has all nine `IMAP_FIELD_NAMES` keys; and with
`throw_exception_on_error=True` the first missing field raises an exception
naming that field and the 1-based row number. -/
theorem claim_c10 :
    (∀ (st : DatimImapState) (b : Bool),
      st.imap_data = none ∨ st.imap_data = some [] → is_valid st b = .ok false) ∧
    (∀ (st : DatimImapState) (b : Bool),
      is_valid st b = .ok true ↔
        ∃ rows, st.imap_data = some rows ∧ rows ≠ [] ∧
          ∀ row ∈ rows, ∀ f ∈ IMAP_FIELD_NAMES, row.any (fun p => p.1 == f) = true) ∧
    (∀ (st : DatimImapState) (rows : List ImapRow) (ln : Nat) (f : String),
      st.imap_data = some rows → firstBadRow rows 0 = some (ln, f) →
      is_valid st true =
        .error ("Missing field " ++ f ++ " on row " ++ toString ln ++ " of input file")) := by
  refine ⟨?_, ?_, ?_⟩
  · intro st b h
    rcases h with h | h
    · simp [is_valid, h]
    · simp [is_valid, h]
  · intro st b
    cases hd : st.imap_data with
    | none =>
      simp only [is_valid, hd]
      constructor
      · intro h; exact absurd h (by simp)
      · intro ⟨rows, hrows, _⟩; exact absurd hrows (by simp)
    | some rows =>
      cases rows with
      | nil =>
        simp only [is_valid, hd]
        constructor
        · intro h; exact absurd h (by simp)
        · intro ⟨rows', hrows', hne, _⟩
          rw [Option.some.injEq] at hrows'
          exact absurd hrows'.symm hne
      | cons row rest =>
        simp only [is_valid, hd, isValidRows_ok_true_iff]
        constructor
        · intro hall
          refine ⟨row :: rest, rfl, by simp, ?_⟩
          intro r hr f hf
          have := (firstMissingField_none_iff IMAP_FIELD_NAMES r).mp (hall r hr)
          exact this f hf
        · intro ⟨rows', hrows', hne, hall⟩ r hr
          rw [Option.some.injEq] at hrows'
          subst hrows'
          exact (firstMissingField_none_iff IMAP_FIELD_NAMES r).mpr (hall r hr)
  · intro st rows ln f hd hbad
    cases rows with
    | nil => simp [firstBadRow] at hbad
    | cons row rest =>
      simp only [is_valid, hd]
      exact isValidRows_error_of_firstBad (row :: rest) 0 ln f hbad

/-- Witness for claim C10 at concrete inputs: a state holding `None` is
reported invalid without raising, a valid one-row state is accepted, and a
state whose second row lacks `DATIM_Disag_ID` raises the matching message.
-/
theorem claim_c10_witness :
    is_valid ⟨"RW", "RW-Org", "FY17", none⟩ true = .ok false ∧
    is_valid ⟨"RW", "RW-Org", "FY17", some [goodImapRow]⟩ true = .ok true ∧
    is_valid ⟨"RW", "RW-Org", "FY17", some [goodImapRow, badImapRow]⟩ true =
      .error "Missing field DATIM_Disag_ID on row 2 of input file" :=
  ⟨claim_c10.1 ⟨"RW", "RW-Org", "FY17", none⟩ true (Or.inl rfl),
   (claim_c10.2.1 ⟨"RW", "RW-Org", "FY17", some [goodImapRow]⟩ true).mpr
     ⟨[goodImapRow], rfl, by decide, by decide⟩,
   claim_c10.2.2 ⟨"RW", "RW-Org", "FY17", some [goodImapRow, badImapRow]⟩
     [goodImapRow, badImapRow] 2 "DATIM_Disag_ID" rfl (by decide)⟩

/-! ## Failure on malformed data elements -/

theorem processElements_error_of_bad (repos : List (String × String)) :
    ∀ (des : List DataElement) (st : MerDiff × MerCounts) (de : DataElement),
    de ∈ des →
    de.code = none ∨ de.categoryCombo = none ∨ de.dataSetElements = none →
    ∃ msg, processElements repos st des = .error msg := by
  intro des
  induction des with
  | nil => intro st de hmem _; simp at hmem
  | cons de' rest ih =>
    intro st de hmem hbad
    simp only [processElements]
    cases hde : processDataElement repos st de' with
    | error e => exact ⟨e, rfl⟩
    | ok st₁ =>
      rcases List.mem_cons.mp hmem with heq | hmem'
      · subst heq
        obtain ⟨d, cc, dses, df, ct, us, hcode, hcc, hdse, _, _, _⟩ :=
          processDataElement_parts repos st de st₁ hde
        rcases hbad with h | h | h
        · rw [h] at hcode; exact absurd hcode (by simp)
        · rw [h] at hcc; exact absurd hcc (by simp)
        · rw [h] at hdse; exact absurd hdse (by simp)
      · exact ih st₁ de hmem' hbad

/-- Claim C2: an export containing a data element that lacks `code`,
`categoryCombo` or `dataSetElements` makes `dhis2diff_mer` fail (the Python
`KeyError`, the spec's `MalformedExportError`); it never completes
successfully on such an export. -/
theorem claim_c2 (repos : List (String × String)) (dhis2_diff : MerDiff)
    (doc : Dhis2Export) (de : DataElement)
    (hmem : de ∈ doc.dataElements)
    (hbad : de.code = none ∨ de.categoryCombo = none ∨ de.dataSetElements = none) :
    ∃ msg, dhis2diff_mer repos dhis2_diff doc = .error msg :=
  processElements_error_of_bad repos doc.dataElements (dhis2_diff, zeroMerCounts)
    de hmem hbad

/-- Witness for claim C2: the transformer fails on an export whose only
data element lacks its `code`. -/
theorem claim_c2_witness :
    ∃ msg, dhis2diff_mer sampleRepos emptyMerDiff ⟨[deNoCode]⟩ = .error msg :=
  claim_c2 sampleRepos emptyMerDiff ⟨[deNoCode]⟩ deNoCode
    (List.mem_singleton.mpr rfl) (Or.inl rfl)

/-! ## Skipping of unmapped dataset links -/

/-- Claim C7 (amended): a dataset-element link whose dataset id is not in
`ocl_dataset_repos` is skipped without error — the state is returned
untouched, no reference is created for it — and processing of the
remaining links continues.  (The skip is not counted: see the
counterexample below.) -/
theorem claim_c7 :
    (∀ (repos : List (String × String)) (u : String) (urls : List String)
       (st : MerDiff × MerCounts) (dse : DataSetElement),
       dictLookup repos dse.dataSet.id = none →
       processDse repos u urls st dse = st) ∧
    (∀ (repos : List (String × String)) (u : String) (urls : List String)
       (st : MerDiff × MerCounts) (dse : DataSetElement) (rest : List DataSetElement),
       dictLookup repos dse.dataSet.id = none →
       processDseList repos u urls st (dse :: rest) = processDseList repos u urls st rest) := by
  have h1 : ∀ (repos : List (String × String)) (u : String) (urls : List String)
      (st : MerDiff × MerCounts) (dse : DataSetElement),
      dictLookup repos dse.dataSet.id = none → processDse repos u urls st dse = st := by
    intro repos u urls st dse h
    simp [processDse, h]
  refine ⟨h1, ?_⟩
  intro repos u urls st dse rest h
  simp only [processDseList]
  rw [h1 repos u urls st dse h]

/-- Witness for claim C7: the link to the unmapped dataset `dsX` is skipped
with the state unchanged. -/
theorem claim_c7_witness :
    processDse sampleRepos (merConceptUrl "TX_NEW") [] (emptyMerDiff, zeroMerCounts)
      ⟨⟨"dsX"⟩⟩ = (emptyMerDiff, zeroMerCounts) :=
  claim_c7.1 sampleRepos (merConceptUrl "TX_NEW") [] (emptyMerDiff, zeroMerCounts)
    ⟨⟨"dsX"⟩⟩ (by decide)

/-- Counterexample to the counting part of claim C7: the export with an
extra link to the unmapped dataset `dsX` produces exactly the same snapshot
and the same five counters as the export without it — no output of
`dhis2diff_mer` counts the skipped occurrence. -/
theorem claim_c7_counterexample :
    deTXextra.dataSetElements = some [⟨⟨"dsA"⟩⟩, ⟨⟨"dsX"⟩⟩] ∧
    dictLookup sampleRepos "dsX" = none ∧
    dhis2diff_mer sampleRepos emptyMerDiff unknownDsExport =
      dhis2diff_mer sampleRepos emptyMerDiff scenarioExport := by
  refine ⟨rfl, by decide, ?_⟩
  rfl

/-! ## The one-element scenario and reference deduplication -/

/-- Claim C6: on the scenario export (one data element `TX_NEW` with one
category-option-combo `Age_15+` linked to dataset `dsA` mapped to `COL1`)
the transformer produces exactly 1 Indicator concept, 1 Disaggregate
concept, 1 mapping and 2 concept references in `COL1` (one for the
indicator, one for the disaggregate); and disaggregate-reference creation
is idempotent per key — when the key is already present the state is
returned unchanged. -/
theorem claim_c6 :
    (dhis2diff_mer sampleRepos emptyMerDiff scenarioExport = .ok scenarioRun ∧
     scenarioRun.2 = ⟨1, 1, 1, 1, 1⟩ ∧
     scenarioRun.1.concepts.countP (fun p => p.2.concept_class == "Indicator") = 1 ∧
     scenarioRun.1.concepts.countP (fun p => p.2.concept_class == "Disaggregate") = 1 ∧
     scenarioRun.1.mappings.length = 1 ∧
     scenarioRun.1.concept_refs.length = 2 ∧
     scenarioRun.1.concept_refs.map (fun p => (p.2.collection_id, p.2.concept_url)) =
       [("COL1", merConceptUrl "TX_NEW"), ("COL1", merConceptUrl "Age_15+")]) ∧
    (∀ (diff : MerDiff) (counts : MerCounts) (col url : String),
      dictContains diff.concept_refs (get_concept_reference_json "PEPFAR" col url).1 = true →
      addDisaggregateRef col (diff, counts) url = (diff, counts)) := by
  constructor
  · exact ⟨rfl, rfl, by decide, by decide, rfl, rfl, by decide⟩
  · intro diff counts col url h
    simp [addDisaggregateRef, h]

/-- Witness for claim C6: inserting the `Age_15+` reference into a snapshot
already holding it leaves the snapshot and the counters unchanged. -/
theorem claim_c6_witness :
    addDisaggregateRef "COL1" (dedupDiff, zeroMerCounts) (merConceptUrl "Age_15+") =
      (dedupDiff, zeroMerCounts) :=
  claim_c6.2 dedupDiff zeroMerCounts "COL1" (merConceptUrl "Age_15+") (by decide)

/-! ## Referential integrity of the produced snapshot -/

theorem refIntegrity_of_fields {m m' : MerDiff}
    (hc : m'.concepts = m.concepts) (hm : m'.mappings = m.mappings)
    (h : RefIntegrity m) : RefIntegrity m' := by
  intro p hp
  rw [hm] at hp
  rw [hc]
  exact h p hp

theorem processCoc_refIntegrity (u : String) (diff : MerDiff) (counts : MerCounts)
    (urls : List String) (coc : CategoryOptionCombo)
    (hu : dictContains diff.concepts u = true) (h : RefIntegrity diff) :
    RefIntegrity (processCoc u (diff, counts, urls) coc).1 := by
  by_cases hc : dictContains diff.concepts (merConceptUrl coc.code)
  · simp only [processCoc, hc, if_true]
    intro p hp
    rcases mem_dictInsert _ _ _ _ hp with hp | hp
    · subst hp
      exact ⟨hu, hc⟩
    · exact h p hp
  · simp only [processCoc, hc, if_false]
    intro p hp
    rcases mem_dictInsert _ _ _ _ hp with hp | hp
    · subst hp
      exact ⟨dictContains_insert _ _ _ _ hu, dictContains_insert_self _ _ _⟩
    · have := h p hp
      exact ⟨dictContains_insert _ _ _ _ this.1, dictContains_insert _ _ _ _ this.2⟩

theorem processCocList_refIntegrity (u : String) :
    ∀ (cocs : List CategoryOptionCombo) (diff : MerDiff) (counts : MerCounts)
      (urls : List String),
    dictContains diff.concepts u = true → RefIntegrity diff →
    RefIntegrity (processCocList u (diff, counts, urls) cocs).1 := by
  intro cocs
  induction cocs with
  | nil => intro diff counts urls _ h; exact h
  | cons coc rest ih =>
    intro diff counts urls hu h
    simp only [processCocList]
    rcases hpc : processCoc u (diff, counts, urls) coc with ⟨d₁, c₁, u₁⟩
    apply ih d₁ c₁ u₁
    · have := processCoc_mono_concepts u diff counts urls coc u hu
      rw [hpc] at this
      exact this
    · have := processCoc_refIntegrity u diff counts urls coc hu h
      rw [hpc] at this
      exact this

theorem processDataElement_refIntegrity (repos : List (String × String))
    (st : MerDiff × MerCounts) (de : DataElement) (st' : MerDiff × MerCounts)
    (h : processDataElement repos st de = .ok st') (hri : RefIntegrity st.1) :
    RefIntegrity st'.1 := by
  obtain ⟨d, cc, dses, diff₂, counts₂, urls, hcode, hcc, hdse, hP, hurls, hst'⟩ :=
    processDataElement_parts repos st de st' h
  subst hst'
  apply refIntegrity_of_fields
    (processDseList_concepts repos (merConceptUrl d) urls dses diff₂ counts₂)
    (processDseList_mappings repos (merConceptUrl d) urls dses diff₂ counts₂)
  have h1 : RefIntegrity
      { st.1 with concepts := dictInsert st.1.concepts (merConceptUrl d) (mkIndicatorConcept d de) } := by
    intro p hp
    have := hri p hp
    exact ⟨dictContains_insert _ _ _ _ this.1, dictContains_insert _ _ _ _ this.2⟩
  have h2 := processCocList_refIntegrity (merConceptUrl d) cc.categoryOptionCombos
    { st.1 with concepts := dictInsert st.1.concepts (merConceptUrl d) (mkIndicatorConcept d de) }
    { st.2 with num_indicators := st.2.num_indicators + 1 } []
    (dictContains_insert_self _ _ _) h1
  rw [hP] at h2
  exact h2

theorem processElements_refIntegrity (repos : List (String × String)) :
    ∀ (des : List DataElement) (st st' : MerDiff × MerCounts),
    processElements repos st des = .ok st' → RefIntegrity st.1 → RefIntegrity st'.1 := by
  intro des
  induction des with
  | nil =>
    intro st st' h hri
    simp only [processElements, Except.ok.injEq] at h
    rw [← h]
    exact hri
  | cons de rest ih =>
    intro st st' h hri
    simp only [processElements] at h
    cases hde : processDataElement repos st de with
    | error e => rw [hde] at h; exact absurd h (by simp)
    | ok st₁ =>
      rw [hde] at h
      exact ih st₁ st' h (processDataElement_refIntegrity repos st de st₁ hde hri)

/-- Claim C3: in any snapshot produced by `dhis2diff_mer` (from an initial
snapshot that itself satisfies the invariant, e.g. the empty one), every
mapping's `from_concept_url` and `to_concept_url` are keys of the concept
partition of the same snapshot. -/
theorem claim_c3 (repos : List (String × String)) (init : MerDiff)
    (doc : Dhis2Export) (diff : MerDiff) (counts : MerCounts)
    (hrun : dhis2diff_mer repos init doc = .ok (diff, counts))
    (hinit : RefIntegrity init) : RefIntegrity diff :=
  processElements_refIntegrity repos doc.dataElements (init, zeroMerCounts)
    (diff, counts) hrun hinit

/-- Witness for claim C3: the scenario run satisfies referential
integrity. -/
theorem claim_c3_witness : RefIntegrity scenarioRun.1 :=
  claim_c3 sampleRepos emptyMerDiff scenarioExport scenarioRun.1 scenarioRun.2 rfl
    (fun p hp => absurd hp (List.not_mem_nil p))

/-! ## First-occurrence-wins for disaggregate concepts -/

theorem processCoc_lookup_concepts (u : String) (diff : MerDiff) (counts : MerCounts)
    (urls : List String) (coc : CategoryOptionCombo) (k : String) (v : ConceptRecord)
    (hk : dictLookup diff.concepts k = some v) :
    dictLookup (processCoc u (diff, counts, urls) coc).1.concepts k = some v := by
  by_cases hc : dictContains diff.concepts (merConceptUrl coc.code)
  · simpa [processCoc, hc] using hk
  · simp only [processCoc, hc, Bool.false_eq_true, if_false]
    by_cases he : k = merConceptUrl coc.code
    · exfalso
      rw [he] at hk
      have : dictContains diff.concepts (merConceptUrl coc.code) = true := by
        simp [dictContains, hk]
      rw [this] at hc
      exact hc rfl
    · rw [dictLookup_insert_ne _ _ _ _ he]
      exact hk

theorem processCocList_lookup_concepts (u : String) :
    ∀ (cocs : List CategoryOptionCombo) (diff : MerDiff) (counts : MerCounts)
      (urls : List String) (k : String) (v : ConceptRecord),
    dictLookup diff.concepts k = some v →
    dictLookup (processCocList u (diff, counts, urls) cocs).1.concepts k = some v := by
  intro cocs
  induction cocs with
  | nil => intro diff counts urls k v hk; exact hk
  | cons coc rest ih =>
    intro diff counts urls k v hk
    simp only [processCocList]
    rcases hpc : processCoc u (diff, counts, urls) coc with ⟨d₁, c₁, u₁⟩
    apply ih d₁ c₁ u₁ k v
    have := processCoc_lookup_concepts u diff counts urls coc k v hk
    rw [hpc] at this
    exact this

theorem processCoc_lookup_none (u : String) (diff : MerDiff) (counts : MerCounts)
    (urls : List String) (coc : CategoryOptionCombo) (c : String)
    (hne : coc.code ≠ c)
    (hk : dictLookup diff.concepts (merConceptUrl c) = none) :
    dictLookup (processCoc u (diff, counts, urls) coc).1.concepts (merConceptUrl c)
      = none := by
  by_cases hc : dictContains diff.concepts (merConceptUrl coc.code)
  · simpa [processCoc, hc] using hk
  · simp only [processCoc, hc, Bool.false_eq_true, if_false]
    rw [dictLookup_insert_ne _ _ _ _
      (fun h => hne (merConceptUrl_inj c coc.code h).symm)]
    exact hk

theorem processCocList_lookup_none (u : String) :
    ∀ (cocs : List CategoryOptionCombo) (diff : MerDiff) (counts : MerCounts)
      (urls : List String) (c : String),
    firstCocInList cocs c = none →
    dictLookup diff.concepts (merConceptUrl c) = none →
    dictLookup (processCocList u (diff, counts, urls) cocs).1.concepts (merConceptUrl c)
      = none := by
  intro cocs
  induction cocs with
  | nil => intro diff counts urls c _ hk; exact hk
  | cons coc rest ih =>
    intro diff counts urls c hfirst hk
    by_cases hcode : coc.code = c
    · simp [firstCocInList, hcode] at hfirst
    · simp only [firstCocInList, beq_iff_eq, hcode, if_false] at hfirst
      simp only [processCocList]
      rcases hpc : processCoc u (diff, counts, urls) coc with ⟨d₁, c₁, u₁⟩
      apply ih d₁ c₁ u₁ c hfirst
      have := processCoc_lookup_none u diff counts urls coc c hcode hk
      rw [hpc] at this
      exact this

theorem processCocList_creates_disagg (u : String) :
    ∀ (cocs : List CategoryOptionCombo) (diff : MerDiff) (counts : MerCounts)
      (urls : List String) (c : String) (coc₀ : CategoryOptionCombo),
    dictLookup diff.concepts (merConceptUrl c) = none →
    firstCocInList cocs c = some coc₀ →
    dictLookup (processCocList u (diff, counts, urls) cocs).1.concepts (merConceptUrl c)
      = some (mkDisaggregateConcept coc₀) := by
  intro cocs
  induction cocs with
  | nil => intro diff counts urls c coc₀ _ hfirst; simp [firstCocInList] at hfirst
  | cons coc rest ih =>
    intro diff counts urls c coc₀ hk hfirst
    by_cases hcode : coc.code = c
    · simp only [firstCocInList, beq_iff_eq, hcode, if_true, Option.some.injEq] at hfirst
      subst hfirst
      simp only [processCocList]
      have hc : dictContains diff.concepts (merConceptUrl coc.code) = false := by
        rw [hcode]
        simp [dictContains, hk]
      rcases hpc : processCoc u (diff, counts, urls) coc with ⟨d₁, c₁, u₁⟩
      apply processCocList_lookup_concepts u rest d₁ c₁ u₁
      have : dictLookup (processCoc u (diff, counts, urls) coc).1.concepts
          (merConceptUrl c) = some (mkDisaggregateConcept coc) := by
        simp only [processCoc, hc, Bool.false_eq_true, if_false]
        rw [← hcode]
        exact dictLookup_insert_self _ _ _
      rw [hpc] at this
      exact this
    · simp only [firstCocInList, beq_iff_eq, hcode, if_false] at hfirst
      simp only [processCocList]
      rcases hpc : processCoc u (diff, counts, urls) coc with ⟨d₁, c₁, u₁⟩
      apply ih d₁ c₁ u₁ c coc₀ _ hfirst
      have := processCoc_lookup_none u diff counts urls coc c hcode hk
      rw [hpc] at this
      exact this

theorem processDataElement_lookup_concepts (repos : List (String × String))
    (st : MerDiff × MerCounts) (de : DataElement) (st' : MerDiff × MerCounts)
    (k : String) (v : ConceptRecord)
    (h : processDataElement repos st de = .ok st')
    (hne : ∀ d, de.code = some d → merConceptUrl d ≠ k)
    (hk : dictLookup st.1.concepts k = some v) :
    dictLookup st'.1.concepts k = some v := by
  obtain ⟨d, cc, dses, diff₂, counts₂, urls, hcode, hcc, hdse, hP, hurls, hst'⟩ :=
    processDataElement_parts repos st de st' h
  subst hst'
  rw [processDseList_concepts]
  have h1 : dictLookup (dictInsert st.1.concepts (merConceptUrl d)
      (mkIndicatorConcept d de)) k = some v := by
    rw [dictLookup_insert_ne _ _ _ _ (fun he => hne d hcode he.symm)]
    exact hk
  have h2 := processCocList_lookup_concepts (merConceptUrl d) cc.categoryOptionCombos
    { st.1 with concepts := dictInsert st.1.concepts (merConceptUrl d) (mkIndicatorConcept d de) }
    { st.2 with num_indicators := st.2.num_indicators + 1 } [] k v h1
  rw [hP] at h2
  exact h2

theorem processElements_lookup_concepts (repos : List (String × String)) :
    ∀ (des : List DataElement) (st st' : MerDiff × MerCounts) (k : String)
      (v : ConceptRecord),
    processElements repos st des = .ok st' →
    (∀ de ∈ des, ∀ d, de.code = some d → merConceptUrl d ≠ k) →
    dictLookup st.1.concepts k = some v →
    dictLookup st'.1.concepts k = some v := by
  intro des
  induction des with
  | nil =>
    intro st st' k v h _ hk
    simp only [processElements, Except.ok.injEq] at h
    rw [← h]
    exact hk
  | cons de rest ih =>
    intro st st' k v h hne hk
    simp only [processElements] at h
    cases hde : processDataElement repos st de with
    | error e => rw [hde] at h; exact absurd h (by simp)
    | ok st₁ =>
      rw [hde] at h
      exact ih st₁ st' k v h
        (fun de' hde' => hne de' (List.mem_cons_of_mem _ hde'))
        (processDataElement_lookup_concepts repos st de st₁ k v hde
          (hne de (List.mem_cons_self de rest)) hk)

theorem processDataElement_creates_disagg (repos : List (String × String))
    (st : MerDiff × MerCounts) (de : DataElement) (st' : MerDiff × MerCounts)
    (c : String) (coc₀ : CategoryOptionCombo) (cc : CategoryCombo)
    (h : processDataElement repos st de = .ok st')
    (hne : ∀ d, de.code = some d → d ≠ c)
    (hcc : de.categoryCombo = some cc)
    (hfirst : firstCocInList cc.categoryOptionCombos c = some coc₀)
    (hnone : dictLookup st.1.concepts (merConceptUrl c) = none) :
    dictLookup st'.1.concepts (merConceptUrl c) = some (mkDisaggregateConcept coc₀) := by
  obtain ⟨d, cc', dses, diff₂, counts₂, urls, hcode, hcc', hdse, hP, hurls, hst'⟩ :=
    processDataElement_parts repos st de st' h
  subst hst'
  rw [processDseList_concepts]
  rw [hcc] at hcc'
  rw [Option.some.injEq] at hcc'
  subst hcc'
  have h1 : dictLookup (dictInsert st.1.concepts (merConceptUrl d)
      (mkIndicatorConcept d de)) (merConceptUrl c) = none := by
    rw [dictLookup_insert_ne _ _ _ _
      (fun he => hne d hcode (merConceptUrl_inj d c he.symm))]
    exact hnone
  have h2 := processCocList_creates_disagg (merConceptUrl d) cc.categoryOptionCombos
    { st.1 with concepts := dictInsert st.1.concepts (merConceptUrl d) (mkIndicatorConcept d de) }
    { st.2 with num_indicators := st.2.num_indicators + 1 } [] c coc₀ h1 hfirst
  rw [hP] at h2
  exact h2

theorem processDataElement_none_disagg (repos : List (String × String))
    (st : MerDiff × MerCounts) (de : DataElement) (st' : MerDiff × MerCounts)
    (c : String) (cc : CategoryCombo)
    (h : processDataElement repos st de = .ok st')
    (hne : ∀ d, de.code = some d → d ≠ c)
    (hcc : de.categoryCombo = some cc)
    (hfirst : firstCocInList cc.categoryOptionCombos c = none)
    (hnone : dictLookup st.1.concepts (merConceptUrl c) = none) :
    dictLookup st'.1.concepts (merConceptUrl c) = none := by
  obtain ⟨d, cc', dses, diff₂, counts₂, urls, hcode, hcc', hdse, hP, hurls, hst'⟩ :=
    processDataElement_parts repos st de st' h
  subst hst'
  rw [processDseList_concepts]
  rw [hcc] at hcc'
  rw [Option.some.injEq] at hcc'
  subst hcc'
  have h1 : dictLookup (dictInsert st.1.concepts (merConceptUrl d)
      (mkIndicatorConcept d de)) (merConceptUrl c) = none := by
    rw [dictLookup_insert_ne _ _ _ _
      (fun he => hne d hcode (merConceptUrl_inj d c he.symm))]
    exact hnone
  have h2 := processCocList_lookup_none (merConceptUrl d) cc.categoryOptionCombos
    { st.1 with concepts := dictInsert st.1.concepts (merConceptUrl d) (mkIndicatorConcept d de) }
    { st.2 with num_indicators := st.2.num_indicators + 1 } [] c hfirst h1
  rw [hP] at h2
  exact h2

theorem processElements_creates_first_disagg (repos : List (String × String)) :
    ∀ (des : List DataElement) (st st' : MerDiff × MerCounts) (c : String)
      (coc₀ : CategoryOptionCombo),
    processElements repos st des = .ok st' →
    (∀ de ∈ des, ∀ d, de.code = some d → d ≠ c) →
    firstCoc des c = some coc₀ →
    dictLookup st.1.concepts (merConceptUrl c) = none →
    dictLookup st'.1.concepts (merConceptUrl c) = some (mkDisaggregateConcept coc₀) := by
  intro des
  induction des with
  | nil => intro st st' c coc₀ _ _ hfirst _; simp [firstCoc] at hfirst
  | cons de rest ih =>
    intro st st' c coc₀ h hne hfirst hnone
    simp only [processElements] at h
    cases hde : processDataElement repos st de with
    | error e => rw [hde] at h; exact absurd h (by simp)
    | ok st₁ =>
      rw [hde] at h
      obtain ⟨d, cc, dses, diff₂, counts₂, urls, hcode, hcc, hdse, hP, hurls, hst'⟩ :=
        processDataElement_parts repos st de st₁ hde
      cases hfl : firstCocInList cc.categoryOptionCombos c with
      | some coc₁ =>
        simp only [firstCoc, hcc, hfl, Option.some.injEq] at hfirst
        subst hfirst
        have hcreated := processDataElement_creates_disagg repos st de st₁ c coc₁ cc
          hde (hne de (List.mem_cons_self de rest)) hcc hfl hnone
        exact processElements_lookup_concepts repos rest st₁ st' (merConceptUrl c)
          (mkDisaggregateConcept coc₁) h
          (fun de' hde' d' hd' he =>
            hne de' (List.mem_cons_of_mem _ hde') d' hd' (merConceptUrl_inj d' c he))
          hcreated
      | none =>
        simp only [firstCoc, hcc, hfl] at hfirst
        have hkept := processDataElement_none_disagg repos st de st₁ c cc hde
          (hne de (List.mem_cons_self de rest)) hcc hfl hnone
        exact ih st₁ st' c coc₀ h
          (fun de' hde' => hne de' (List.mem_cons_of_mem _ hde')) hfirst hkept

/-! ## Mapping records per (indicator, disaggregate) pair -/

theorem pairMappingKey_ne (d₁ d₂ c : String) (h : d₁ ≠ d₂) :
    pairMappingKey d₁ c ≠ pairMappingKey d₂ c := fun he =>
  h (merMappingKey_from_inj d₁ d₂ (merConceptUrl c) he)

theorem processCoc_pers_mapping (d' : String) (diff : MerDiff) (counts : MerCounts)
    (urls : List String) (coc : CategoryOptionCombo) (d c : String)
    (hf : ampFree d = true) (hf' : ampFree d' = true)
    (hk : dictLookup diff.mappings (pairMappingKey d c) = some (pairMapping d c)) :
    dictLookup (processCoc (merConceptUrl d') (diff, counts, urls) coc).1.mappings
      (pairMappingKey d c) = some (pairMapping d c) := by
  simp only [pairMappingKey, pairMapping] at hk ⊢
  by_cases he : merMappingKey (merConceptUrl d') "Has Option" (merConceptUrl coc.code) =
      merMappingKey (merConceptUrl d) "Has Option" (merConceptUrl c)
  · obtain ⟨hd, hcode⟩ := merMappingKey_inj_ampFree d' d coc.code c hf' hf he
    by_cases hc : dictContains diff.concepts (merConceptUrl coc.code)
    · simp only [processCoc, hc, if_true]
      rw [← he, dictLookup_insert_self, hd, hcode]
    · simp only [processCoc, hc, Bool.false_eq_true, if_false]
      rw [← he, dictLookup_insert_self, hd, hcode]
  · by_cases hc : dictContains diff.concepts (merConceptUrl coc.code)
    · simp only [processCoc, hc, if_true]
      rw [dictLookup_insert_ne _ _ _ _ (fun hh => he hh.symm)]
      exact hk
    · simp only [processCoc, hc, Bool.false_eq_true, if_false]
      rw [dictLookup_insert_ne _ _ _ _ (fun hh => he hh.symm)]
      exact hk

theorem processCocList_pers_mapping (d' : String) :
    ∀ (cocs : List CategoryOptionCombo) (diff : MerDiff) (counts : MerCounts)
      (urls : List String) (d c : String),
    ampFree d = true → ampFree d' = true →
    dictLookup diff.mappings (pairMappingKey d c) = some (pairMapping d c) →
    dictLookup (processCocList (merConceptUrl d') (diff, counts, urls) cocs).1.mappings
      (pairMappingKey d c) = some (pairMapping d c) := by
  intro cocs
  induction cocs with
  | nil => intro diff counts urls d c _ _ hk; exact hk
  | cons coc rest ih =>
    intro diff counts urls d c hf hf' hk
    simp only [processCocList]
    rcases hpc : processCoc (merConceptUrl d') (diff, counts, urls) coc with ⟨d₁, c₁, u₁⟩
    apply ih d₁ c₁ u₁ d c hf hf'
    have := processCoc_pers_mapping d' diff counts urls coc d c hf hf' hk
    rw [hpc] at this
    exact this

theorem processCoc_sets_mapping (d' : String) (diff : MerDiff) (counts : MerCounts)
    (urls : List String) (coc : CategoryOptionCombo) :
    dictLookup (processCoc (merConceptUrl d') (diff, counts, urls) coc).1.mappings
      (pairMappingKey d' coc.code) = some (pairMapping d' coc.code) := by
  simp only [pairMappingKey, pairMapping]
  by_cases hc : dictContains diff.concepts (merConceptUrl coc.code)
  · simp only [processCoc, hc, if_true]
    exact dictLookup_insert_self _ _ _
  · simp only [processCoc, hc, Bool.false_eq_true, if_false]
    exact dictLookup_insert_self _ _ _

theorem processCocList_creates_mapping (d' : String) :
    ∀ (cocs : List CategoryOptionCombo) (diff : MerDiff) (counts : MerCounts)
      (urls : List String) (c : String),
    ampFree d' = true →
    c ∈ cocs.map (fun coc => coc.code) →
    dictLookup (processCocList (merConceptUrl d') (diff, counts, urls) cocs).1.mappings
      (pairMappingKey d' c) = some (pairMapping d' c) := by
  intro cocs
  induction cocs with
  | nil => intro diff counts urls c _ hm; simp at hm
  | cons coc rest ih =>
    intro diff counts urls c hf' hm
    simp only [processCocList]
    rcases hpc : processCoc (merConceptUrl d') (diff, counts, urls) coc with ⟨d₁, c₁, u₁⟩
    simp only [List.map_cons, List.mem_cons] at hm
    rcases hm with hm' | hm'
    · subst hm'
      apply processCocList_pers_mapping d' rest d₁ c₁ u₁ d' coc.code hf' hf'
      have := processCoc_sets_mapping d' diff counts urls coc
      rw [hpc] at this
      exact this
    · exact ih d₁ c₁ u₁ c hf' hm'

theorem processDataElement_pers_mapping (repos : List (String × String))
    (st : MerDiff × MerCounts) (de : DataElement) (st' : MerDiff × MerCounts)
    (d c : String)
    (h : processDataElement repos st de = .ok st')
    (hf : ampFree d = true)
    (hamp : ∀ s, de.code = some s → ampFree s = true)
    (hk : dictLookup st.1.mappings (pairMappingKey d c) = some (pairMapping d c)) :
    dictLookup st'.1.mappings (pairMappingKey d c) = some (pairMapping d c) := by
  obtain ⟨d₀, cc, dses, diff₂, counts₂, urls, hcode, hcc, hdse, hP, hurls, hst'⟩ :=
    processDataElement_parts repos st de st' h
  subst hst'
  rw [processDseList_mappings]
  have h2 := processCocList_pers_mapping d₀ cc.categoryOptionCombos
    { st.1 with concepts := dictInsert st.1.concepts (merConceptUrl d₀) (mkIndicatorConcept d₀ de) }
    { st.2 with num_indicators := st.2.num_indicators + 1 } [] d c hf (hamp d₀ hcode) hk
  rw [hP] at h2
  exact h2

theorem processDataElement_creates_mapping (repos : List (String × String))
    (st : MerDiff × MerCounts) (de : DataElement) (st' : MerDiff × MerCounts)
    (d c : String)
    (h : processDataElement repos st de = .ok st')
    (hcode : de.code = some d) (hf : ampFree d = true)
    (hc : c ∈ cocCodes de) :
    dictLookup st'.1.mappings (pairMappingKey d c) = some (pairMapping d c) := by
  obtain ⟨d₀, cc, dses, diff₂, counts₂, urls, hcode', hcc, hdse, hP, hurls, hst'⟩ :=
    processDataElement_parts repos st de st' h
  rw [hcode] at hcode'
  rw [Option.some.injEq] at hcode'
  subst hcode'
  subst hst'
  rw [processDseList_mappings]
  simp only [cocCodes, hcc] at hc
  have h2 := processCocList_creates_mapping d cc.categoryOptionCombos
    { st.1 with concepts := dictInsert st.1.concepts (merConceptUrl d) (mkIndicatorConcept d de) }
    { st.2 with num_indicators := st.2.num_indicators + 1 } [] c hf hc
  rw [hP] at h2
  exact h2

theorem processElements_pers_mapping (repos : List (String × String)) :
    ∀ (des : List DataElement) (st st' : MerDiff × MerCounts) (d c : String),
    processElements repos st des = .ok st' → ampFree d = true →
    (∀ de ∈ des, ∀ s, de.code = some s → ampFree s = true) →
    dictLookup st.1.mappings (pairMappingKey d c) = some (pairMapping d c) →
    dictLookup st'.1.mappings (pairMappingKey d c) = some (pairMapping d c) := by
  intro des
  induction des with
  | nil =>
    intro st st' d c h _ _ hk
    simp only [processElements, Except.ok.injEq] at h
    rw [← h]
    exact hk
  | cons de rest ih =>
    intro st st' d c h hf hamp hk
    simp only [processElements] at h
    cases hde : processDataElement repos st de with
    | error e => rw [hde] at h; exact absurd h (by simp)
    | ok st₁ =>
      rw [hde] at h
      exact ih st₁ st' d c h hf
        (fun de' hde' => hamp de' (List.mem_cons_of_mem _ hde'))
        (processDataElement_pers_mapping repos st de st₁ d c hde hf
          (hamp de (List.mem_cons_self de rest)) hk)

theorem processElements_creates_mapping (repos : List (String × String)) :
    ∀ (des : List DataElement) (st st' : MerDiff × MerCounts) (de : DataElement)
      (d c : String),
    processElements repos st des = .ok st' →
    de ∈ des → de.code = some d → c ∈ cocCodes de →
    (∀ de' ∈ des, ∀ s, de'.code = some s → ampFree s = true) →
    dictLookup st'.1.mappings (pairMappingKey d c) = some (pairMapping d c) := by
  intro des
  induction des with
  | nil => intro st st' de d c _ hmem; simp at hmem
  | cons de' rest ih =>
    intro st st' de d c h hmem hcode hc hamp
    simp only [processElements] at h
    cases hde : processDataElement repos st de' with
    | error e => rw [hde] at h; exact absurd h (by simp)
    | ok st₁ =>
      rw [hde] at h
      rcases List.mem_cons.mp hmem with heq | hmem'
      · subst heq
        have hf : ampFree d = true := hamp de (List.mem_cons_self de rest) d hcode
        have hcreated := processDataElement_creates_mapping repos st de st₁ d c hde
          hcode hf hc
        exact processElements_pers_mapping repos rest st₁ st' d c h hf
          (fun de'' hde'' => hamp de'' (List.mem_cons_of_mem _ hde'')) hcreated
      · exact ih st₁ st' de d c h hmem' hcode hc
          (fun de'' hde'' => hamp de'' (List.mem_cons_of_mem _ hde''))

/-- Claim C1: in an export where two data elements with distinct codes
`d₁ ≠ d₂` share a category-option-combo code `c` (and, as in real DHIS2
exports, no data element code equals `c` and no data element code contains
the `&` delimiter of the composite mapping key), the snapshot produced by
`dhis2diff_mer` holds exactly one Disaggregate concept record under the
key of `c` — the record built from the first occurrence, never overwritten
by later occurrences — and exactly one `Has Option` mapping record per
(indicator, disaggregate) pair, so the two indicators yield two distinct
mapping records. -/
theorem claim_c1 (repos : List (String × String)) (doc : Dhis2Export)
    (diff : MerDiff) (counts : MerCounts) (c d₁ d₂ : String)
    (de₁ de₂ : DataElement) (coc₀ : CategoryOptionCombo)
    (hrun : dhis2diff_mer repos emptyMerDiff doc = .ok (diff, counts))
    (h1 : de₁ ∈ doc.dataElements) (h2 : de₂ ∈ doc.dataElements)
    (hc1 : de₁.code = some d₁) (hc2 : de₂.code = some d₂)
    (hcoc1 : c ∈ cocCodes de₁) (hcoc2 : c ∈ cocCodes de₂)
    (hd : d₁ ≠ d₂)
    (hfirst : firstCoc doc.dataElements c = some coc₀)
    (hnotind : ∀ de ∈ doc.dataElements, de.code ≠ some c)
    (hamp : ∀ de ∈ doc.dataElements, codeAmpFree de = true) :
    dictLookup diff.concepts (merConceptUrl c) = some (mkDisaggregateConcept coc₀) ∧
    diff.concepts.countP (fun p => p.1 == merConceptUrl c) = 1 ∧
    dictLookup diff.mappings (pairMappingKey d₁ c) = some (pairMapping d₁ c) ∧
    dictLookup diff.mappings (pairMappingKey d₂ c) = some (pairMapping d₂ c) ∧
    pairMappingKey d₁ c ≠ pairMappingKey d₂ c ∧
    diff.mappings.countP (fun p => p.1 == pairMappingKey d₁ c) = 1 ∧
    diff.mappings.countP (fun p => p.1 == pairMappingKey d₂ c) = 1 := by
  have hamp' : ∀ de ∈ doc.dataElements, ∀ s, de.code = some s → ampFree s = true := by
    intro de hde s hs
    have := hamp de hde
    simp only [codeAmpFree, hs] at this
    exact this
  have hnodup : NodupMer diff :=
    processElements_nodup repos doc.dataElements (emptyMerDiff, zeroMerCounts)
      (diff, counts) hrun ⟨List.nodup_nil, List.nodup_nil, List.nodup_nil⟩
  have hlc : dictLookup diff.concepts (merConceptUrl c)
      = some (mkDisaggregateConcept coc₀) :=
    processElements_creates_first_disagg repos doc.dataElements
      (emptyMerDiff, zeroMerCounts) (diff, counts) c coc₀ hrun
      (fun de hde s hs hsc => hnotind de hde (by rw [hs, hsc])) hfirst rfl
  have hm1 : dictLookup diff.mappings (pairMappingKey d₁ c) = some (pairMapping d₁ c) :=
    processElements_creates_mapping repos doc.dataElements (emptyMerDiff, zeroMerCounts)
      (diff, counts) de₁ d₁ c hrun h1 hc1 hcoc1 hamp'
  have hm2 : dictLookup diff.mappings (pairMappingKey d₂ c) = some (pairMapping d₂ c) :=
    processElements_creates_mapping repos doc.dataElements (emptyMerDiff, zeroMerCounts)
      (diff, counts) de₂ d₂ c hrun h2 hc2 hcoc2 hamp'
  refine ⟨hlc, ?_, hm1, hm2, pairMappingKey_ne d₁ d₂ c hd, ?_, ?_⟩
  · apply countP_key_eq_one diff.concepts _ hnodup.1
    rw [← dictContains_iff_mem_keys]
    simp [dictContains, hlc]
  · apply countP_key_eq_one diff.mappings _ hnodup.2.1
    rw [← dictContains_iff_mem_keys]
    simp [dictContains, hm1]
  · apply countP_key_eq_one diff.mappings _ hnodup.2.1
    rw [← dictContains_iff_mem_keys]
    simp [dictContains, hm2]

/-- Witness for claim C1: in the shared-disaggregate export, `TX_NEW` and
`HTS_TST` share the `Age_15+` disaggregate; the snapshot holds one
Disaggregate concept built from the first occurrence and two distinct
mapping records. -/
theorem claim_c1_witness :
    dictLookup sharedRun.1.concepts (merConceptUrl "Age_15+") =
      some (mkDisaggregateConcept ⟨"HllvX50cXC0", "Age_15+", "Age 15+"⟩) ∧
    sharedRun.1.concepts.countP (fun p => p.1 == merConceptUrl "Age_15+") = 1 ∧
    dictLookup sharedRun.1.mappings (pairMappingKey "TX_NEW" "Age_15+") =
      some (pairMapping "TX_NEW" "Age_15+") ∧
    dictLookup sharedRun.1.mappings (pairMappingKey "HTS_TST" "Age_15+") =
      some (pairMapping "HTS_TST" "Age_15+") ∧
    pairMappingKey "TX_NEW" "Age_15+" ≠ pairMappingKey "HTS_TST" "Age_15+" ∧
    sharedRun.1.mappings.countP (fun p => p.1 == pairMappingKey "TX_NEW" "Age_15+") = 1 ∧
    sharedRun.1.mappings.countP (fun p => p.1 == pairMappingKey "HTS_TST" "Age_15+") = 1 :=
  claim_c1 sampleRepos sharedDisagExport sharedRun.1 sharedRun.2 "Age_15+"
    "TX_NEW" "HTS_TST" deTX deHTS ⟨"HllvX50cXC0", "Age_15+", "Age 15+"⟩
    rfl (by decide) (by decide) rfl rfl (by decide) (by decide) (by decide)
    (by decide) (by decide) (by decide)

/-! ## Idempotence: simulation of a second run over the first run's result

`DictSim a b D` relates, partition by partition, the first run's current
dict `a` and the second run's current dict `b` to the first run's final
dict `D`.  The second run starts at `b = D`; unconditional writes push `b`
towards `a`'s trajectory, and guarded writes are always skipped in the
second run because every key they could create is already present in `D`.
At the end of the first run `a = D`, so the relation collapses to
`b = D`. -/

theorem dictSub_trans {α : Type} {d₁ d₂ d₃ : List (String × α)}
    (h₁ : dictSub d₁ d₂) (h₂ : dictSub d₂ d₃) : dictSub d₁ d₃ :=
  fun k hk => h₂ k (h₁ k hk)

theorem merSub_trans {m₁ m₂ m₃ : MerDiff} (h₁ : merSub m₁ m₂) (h₂ : merSub m₂ m₃) :
    merSub m₁ m₃ :=
  ⟨dictSub_trans h₁.1 h₂.1, dictSub_trans h₁.2.1 h₂.2.1, dictSub_trans h₁.2.2 h₂.2.2⟩

theorem DictSim_insert {α : Type} (a b D : List (String × α)) (k : String) (v : α)
    (h : DictSim a b D) (hk : k ∈ dictKeys D) :
    DictSim (dictInsert a k v) (dictInsert b k v) D := by
  obtain ⟨hkeys, hlook⟩ := h
  have hcb : dictContains b k = true := by
    rw [dictContains_iff_mem_keys, hkeys]
    exact hk
  constructor
  · rw [dictKeys_insert_of_contains b k v hcb]
    exact hkeys
  · intro k'
    by_cases he : k' = k
    · subst he
      right
      rw [dictLookup_insert_self, dictLookup_insert_self]
    · rw [dictLookup_insert_ne _ _ _ _ he, dictLookup_insert_ne _ _ _ _ he]
      exact hlook k'

theorem DictSim_guarded {α : Type} (a b D : List (String × α)) (k : String) (v : α)
    (h : DictSim a b D)
    (ha : dictSub (if dictContains a k = true then a else dictInsert a k v) D)
    (haD : dictSub a D) :
    (if dictContains b k = true then b else dictInsert b k v) = b ∧
    DictSim (if dictContains a k = true then a else dictInsert a k v) b D := by
  obtain ⟨hkeys, hlook⟩ := h
  have hkD : dictContains D k = true := by
    by_cases hca : dictContains a k = true
    · exact haD k hca
    · apply ha k
      simp only [hca, if_false]
      exact dictContains_insert_self a k v
  have hcb : dictContains b k = true := by
    rw [dictContains_iff_mem_keys, hkeys, ← dictContains_iff_mem_keys]
    exact hkD
  refine ⟨by rw [hcb, if_pos rfl], ?_⟩
  by_cases hca : dictContains a k = true
  · rw [if_pos hca]
    exact ⟨hkeys, hlook⟩
  · rw [if_neg hca]
    refine ⟨hkeys, ?_⟩
    intro k'
    by_cases he : k' = k
    · subst he
      left
      rcases hlook k' with hl | hl
      · exact hl
      · exfalso
        have hnone : dictLookup a k' = none := by
          cases hx : dictLookup a k' with
          | none => rfl
          | some w =>
            exfalso
            apply hca
            simp [dictContains, hx]
        rw [hnone] at hl
        have := dictLookup_isSome_of_mem_keys b k'
          (by rw [hkeys, ← dictContains_iff_mem_keys]; exact hkD)
        rw [hl] at this
        simp at this
    · rw [dictLookup_insert_ne _ _ _ _ he]
      exact hlook k'

theorem merSim_final_eq (D b : MerDiff) (h : MerSim D b D) (hn : NodupMer D) :
    b = D := by
  obtain ⟨hc, hm, hr⟩ := h
  have heq : ∀ {α : Type} (x y : List (String × α)),
      DictSim y x y → (dictKeys y).Nodup → x = y := by
    intro α x y hs hnd
    apply dict_ext x y
    · rw [hs.1]; exact hnd
    · exact hs.1
    · intro k
      rcases hs.2 k with h' | h' <;> exact h'
  have h1 := heq b.concepts D.concepts hc hn.1
  have h2 := heq b.mappings D.mappings hm hn.2.1
  have h3 := heq b.concept_refs D.concept_refs hr hn.2.2
  cases b
  cases D
  simp only at h1 h2 h3
  rw [h1, h2, h3]

/-! ## Equations exposing each write of the transformer -/

theorem processCoc_concepts_eq (u : String) (diff : MerDiff) (counts : MerCounts)
    (urls : List String) (coc : CategoryOptionCombo) :
    (processCoc u (diff, counts, urls) coc).1.concepts =
      if dictContains diff.concepts (merConceptUrl coc.code) = true then diff.concepts
      else dictInsert diff.concepts (merConceptUrl coc.code) (mkDisaggregateConcept coc) := by
  by_cases hc : dictContains diff.concepts (merConceptUrl coc.code)
  · simp [processCoc, hc]
  · simp [processCoc, hc]

theorem processCoc_mappings_eq (u : String) (diff : MerDiff) (counts : MerCounts)
    (urls : List String) (coc : CategoryOptionCombo) :
    (processCoc u (diff, counts, urls) coc).1.mappings =
      dictInsert diff.mappings (merMappingKey u "Has Option" (merConceptUrl coc.code))
        (mkHasOptionMapping u (merConceptUrl coc.code)) := by
  by_cases hc : dictContains diff.concepts (merConceptUrl coc.code)
  · simp [processCoc, hc]
  · simp [processCoc, hc]

theorem addDisaggregateRef_refs_eq (col : String) (diff : MerDiff) (counts : MerCounts)
    (url : String) :
    (addDisaggregateRef col (diff, counts) url).1.concept_refs =
      if dictContains diff.concept_refs
          (get_concept_reference_json "PEPFAR" col url).1 = true
      then diff.concept_refs
      else dictInsert diff.concept_refs (get_concept_reference_json "PEPFAR" col url).1
        (get_concept_reference_json "PEPFAR" col url).2 := by
  by_cases hc : dictContains diff.concept_refs (get_concept_reference_json "PEPFAR" col url).1
  · simp [addDisaggregateRef, hc]
  · simp [addDisaggregateRef, hc]

/-! ## Self-containment of each processing step -/

theorem dictSub_of_eq {α : Type} {d d' : List (String × α)} (h : d = d') : dictSub d d' := by
  intro k hk
  rw [← h]
  exact hk

theorem processCoc_self_sub (u : String) (diff : MerDiff) (counts : MerCounts)
    (urls : List String) (coc : CategoryOptionCombo) :
    merSub diff (processCoc u (diff, counts, urls) coc).1 :=
  ⟨fun k hk => processCoc_mono_concepts u diff counts urls coc k hk,
   fun k hk => processCoc_mono_mappings u diff counts urls coc k hk,
   dictSub_of_eq (processCoc_refs u diff counts urls coc).symm⟩

theorem processCocList_self_sub (u : String) (cocs : List CategoryOptionCombo)
    (diff : MerDiff) (counts : MerCounts) (urls : List String) :
    merSub diff (processCocList u (diff, counts, urls) cocs).1 :=
  ⟨fun k hk => processCocList_mono_concepts u cocs diff counts urls k hk,
   fun k hk => processCocList_mono_mappings u cocs diff counts urls k hk,
   dictSub_of_eq (processCocList_refs u cocs diff counts urls).symm⟩

theorem processDseList_self_sub (repos : List (String × String)) (u : String)
    (urls : List String) (dses : List DataSetElement) (diff : MerDiff)
    (counts : MerCounts) :
    merSub diff (processDseList repos u urls (diff, counts) dses).1 :=
  ⟨dictSub_of_eq (processDseList_concepts repos u urls dses diff counts).symm,
   dictSub_of_eq (processDseList_mappings repos u urls dses diff counts).symm,
   fun k hk => processDseList_mono_refs repos u urls dses diff counts k hk⟩

theorem processDataElement_self_sub (repos : List (String × String))
    (st : MerDiff × MerCounts) (de : DataElement) (st' : MerDiff × MerCounts)
    (h : processDataElement repos st de = .ok st') :
    merSub st.1 st'.1 :=
  ⟨fun k hk => processDataElement_mono_concepts repos st de st' k h hk,
   fun k hk => processDataElement_mono_mappings repos st de st' k h hk,
   fun k hk => processDataElement_mono_refs repos st de st' k h hk⟩

theorem processElements_self_sub (repos : List (String × String))
    (des : List DataElement) (st st' : MerDiff × MerCounts)
    (h : processElements repos st des = .ok st') :
    merSub st.1 st'.1 :=
  ⟨fun k hk => processElements_mono_concepts repos des st st' k h hk,
   fun k hk => processElements_mono_mappings repos des st st' k h hk,
   fun k hk => processElements_mono_refs repos des st st' k h hk⟩

/-! ## Second-run simulation, step by step -/

theorem processCoc_sim (u : String) (a b D : MerDiff) (ca cb : MerCounts)
    (uas ubs : List String) (coc : CategoryOptionCombo)
    (hsim : MerSim a b D)
    (hsub : merSub (processCoc u (a, ca, uas) coc).1 D)
    (hsubA : merSub a D) :
    MerSim (processCoc u (a, ca, uas) coc).1 (processCoc u (b, cb, ubs) coc).1 D := by
  obtain ⟨simC, simM, simR⟩ := hsim
  have ha : dictSub (if dictContains a.concepts (merConceptUrl coc.code) = true
      then a.concepts
      else dictInsert a.concepts (merConceptUrl coc.code) (mkDisaggregateConcept coc))
      D.concepts := by
    rw [← processCoc_concepts_eq u a ca uas coc]
    exact hsub.1
  have hguard := DictSim_guarded a.concepts b.concepts D.concepts
    (merConceptUrl coc.code) (mkDisaggregateConcept coc) simC ha hsubA.1
  have hkm : merMappingKey u "Has Option" (merConceptUrl coc.code)
      ∈ dictKeys D.mappings := by
    rw [← dictContains_iff_mem_keys]
    apply hsub.2.1
    rw [processCoc_mappings_eq u a ca uas coc]
    exact dictContains_insert_self _ _ _
  have hmap := DictSim_insert a.mappings b.mappings D.mappings
    (merMappingKey u "Has Option" (merConceptUrl coc.code))
    (mkHasOptionMapping u (merConceptUrl coc.code)) simM hkm
  refine ⟨?_, ?_, ?_⟩
  · rw [processCoc_concepts_eq u a ca uas coc, processCoc_concepts_eq u b cb ubs coc,
      hguard.1]
    exact hguard.2
  · rw [processCoc_mappings_eq u a ca uas coc, processCoc_mappings_eq u b cb ubs coc]
    exact hmap
  · rw [processCoc_refs u a ca uas coc, processCoc_refs u b cb ubs coc]
    exact simR

theorem processCocList_sim (u : String) :
    ∀ (cocs : List CategoryOptionCombo) (a b D : MerDiff) (ca cb : MerCounts)
      (uas ubs : List String),
    MerSim a b D →
    merSub (processCocList u (a, ca, uas) cocs).1 D →
    merSub a D →
    MerSim (processCocList u (a, ca, uas) cocs).1
      (processCocList u (b, cb, ubs) cocs).1 D := by
  intro cocs
  induction cocs with
  | nil => intro a b D ca cb uas ubs hsim _ _; exact hsim
  | cons coc rest ih =>
    intro a b D ca cb uas ubs hsim hsub hsubA
    simp only [processCocList] at hsub ⊢
    rcases hA : processCoc u (a, ca, uas) coc with ⟨a₁, ca₁, ua₁⟩
    rcases hB : processCoc u (b, cb, ubs) coc with ⟨b₁, cb₁, ub₁⟩
    rw [hA] at hsub
    have hsubA₁ : merSub a₁ D := by
      apply merSub_trans _ hsub
      have := processCocList_self_sub u rest a₁ ca₁ ua₁
      exact this
    have hstep := processCoc_sim u a b D ca cb uas ubs coc ⟨hsim.1, hsim.2.1, hsim.2.2⟩
      (by rw [hA]; exact hsubA₁) hsubA
    rw [hA, hB] at hstep
    exact ih a₁ b₁ D ca₁ cb₁ ua₁ ub₁ hstep hsub hsubA₁

theorem addDisaggregateRef_sim (col url : String) (a b D : MerDiff) (ca cb : MerCounts)
    (hsim : MerSim a b D)
    (hsub : merSub (addDisaggregateRef col (a, ca) url).1 D)
    (hsubA : merSub a D) :
    MerSim (addDisaggregateRef col (a, ca) url).1
      (addDisaggregateRef col (b, cb) url).1 D := by
  obtain ⟨simC, simM, simR⟩ := hsim
  have ha : dictSub (if dictContains a.concept_refs
      (get_concept_reference_json "PEPFAR" col url).1 = true
      then a.concept_refs
      else dictInsert a.concept_refs (get_concept_reference_json "PEPFAR" col url).1
        (get_concept_reference_json "PEPFAR" col url).2) D.concept_refs := by
    rw [← addDisaggregateRef_refs_eq col a ca url]
    exact hsub.2.2
  have hguard := DictSim_guarded a.concept_refs b.concept_refs D.concept_refs
    (get_concept_reference_json "PEPFAR" col url).1
    (get_concept_reference_json "PEPFAR" col url).2 simR ha hsubA.2.2
  refine ⟨?_, ?_, ?_⟩
  · rw [addDisaggregateRef_concepts col a ca url, addDisaggregateRef_concepts col b cb url]
    exact simC
  · rw [addDisaggregateRef_mappings col a ca url, addDisaggregateRef_mappings col b cb url]
    exact simM
  · rw [addDisaggregateRef_refs_eq col a ca url, addDisaggregateRef_refs_eq col b cb url,
      hguard.1]
    exact hguard.2

theorem foldAddRef_self_sub (col : String) (urls : List String) (diff : MerDiff)
    (counts : MerCounts) :
    merSub diff ((urls.foldl (addDisaggregateRef col) (diff, counts))).1 :=
  ⟨dictSub_of_eq (foldAddRef_concepts col urls diff counts).symm,
   dictSub_of_eq (foldAddRef_mappings col urls diff counts).symm,
   fun k hk => foldAddRef_mono_refs col urls diff counts k hk⟩

theorem foldAddRef_sim (col : String) :
    ∀ (urls : List String) (a b D : MerDiff) (ca cb : MerCounts),
    MerSim a b D →
    merSub (urls.foldl (addDisaggregateRef col) (a, ca)).1 D →
    merSub a D →
    MerSim (urls.foldl (addDisaggregateRef col) (a, ca)).1
      (urls.foldl (addDisaggregateRef col) (b, cb)).1 D := by
  intro urls
  induction urls with
  | nil => intro a b D ca cb hsim _ _; exact hsim
  | cons url rest ih =>
    intro a b D ca cb hsim hsub hsubA
    simp only [List.foldl_cons] at hsub ⊢
    rcases hA : addDisaggregateRef col (a, ca) url with ⟨a₁, ca₁⟩
    rcases hB : addDisaggregateRef col (b, cb) url with ⟨b₁, cb₁⟩
    rw [hA] at hsub
    have hsubA₁ : merSub a₁ D :=
      merSub_trans (foldAddRef_self_sub col rest a₁ ca₁) hsub
    have hstep := addDisaggregateRef_sim col url a b D ca cb hsim
      (by rw [hA]; exact hsubA₁) hsubA
    rw [hA, hB] at hstep
    exact ih a₁ b₁ D ca₁ cb₁ hstep hsub hsubA₁

theorem processDse_eq_some (repos : List (String × String)) (u : String)
    (urlsArg : List String) (diff : MerDiff) (counts : MerCounts)
    (dse : DataSetElement) (col : String)
    (hl : dictLookup repos dse.dataSet.id = some col) :
    processDse repos u urlsArg (diff, counts) dse =
      urlsArg.foldl (addDisaggregateRef col)
        ({ diff with concept_refs := dictInsert diff.concept_refs (get_concept_reference_json "PEPFAR" col u).1 (get_concept_reference_json "PEPFAR" col u).2 },
         { counts with num_indicator_refs := counts.num_indicator_refs + 1 }) := by
  simp only [processDse, hl]

theorem processDse_self_sub (repos : List (String × String)) (u : String)
    (urlsArg : List String) (diff : MerDiff) (counts : MerCounts)
    (dse : DataSetElement) :
    merSub diff (processDse repos u urlsArg (diff, counts) dse).1 :=
  ⟨dictSub_of_eq (processDse_concepts repos u urlsArg diff counts dse).symm,
   dictSub_of_eq (processDse_mappings repos u urlsArg diff counts dse).symm,
   fun k hk => processDse_mono_refs repos u urlsArg diff counts dse k hk⟩

theorem processDse_sim (repos : List (String × String)) (u : String)
    (urlsArg : List String) (a b D : MerDiff) (ca cb : MerCounts)
    (dse : DataSetElement)
    (hsim : MerSim a b D)
    (hsub : merSub (processDse repos u urlsArg (a, ca) dse).1 D) :
    MerSim (processDse repos u urlsArg (a, ca) dse).1
      (processDse repos u urlsArg (b, cb) dse).1 D := by
  cases hl : dictLookup repos dse.dataSet.id with
  | none =>
    simp only [processDse, hl]
    exact hsim
  | some col =>
    rw [processDse_eq_some repos u urlsArg a ca dse col hl] at hsub ⊢
    rw [processDse_eq_some repos u urlsArg b cb dse col hl]
    have hk : (get_concept_reference_json "PEPFAR" col u).1 ∈ dictKeys D.concept_refs := by
      rw [← dictContains_iff_mem_keys]
      apply hsub.2.2
      apply foldAddRef_mono_refs
      exact dictContains_insert_self _ _ _
    have hins := DictSim_insert a.concept_refs b.concept_refs D.concept_refs
      (get_concept_reference_json "PEPFAR" col u).1
      (get_concept_reference_json "PEPFAR" col u).2 hsim.2.2 hk
    exact foldAddRef_sim col urlsArg
      { a with concept_refs := dictInsert a.concept_refs (get_concept_reference_json "PEPFAR" col u).1 (get_concept_reference_json "PEPFAR" col u).2 }
      { b with concept_refs := dictInsert b.concept_refs (get_concept_reference_json "PEPFAR" col u).1 (get_concept_reference_json "PEPFAR" col u).2 }
      D { ca with num_indicator_refs := ca.num_indicator_refs + 1 }
      { cb with num_indicator_refs := cb.num_indicator_refs + 1 }
      ⟨hsim.1, hsim.2.1, hins⟩ hsub
      (merSub_trans (foldAddRef_self_sub col urlsArg _ _) hsub)

theorem processDseList_sim (repos : List (String × String)) (u : String)
    (urlsArg : List String) :
    ∀ (dses : List DataSetElement) (a b D : MerDiff) (ca cb : MerCounts),
    MerSim a b D →
    merSub (processDseList repos u urlsArg (a, ca) dses).1 D →
    MerSim (processDseList repos u urlsArg (a, ca) dses).1
      (processDseList repos u urlsArg (b, cb) dses).1 D := by
  intro dses
  induction dses with
  | nil => intro a b D ca cb hsim _; exact hsim
  | cons dse rest ih =>
    intro a b D ca cb hsim hsub
    simp only [processDseList] at hsub ⊢
    rcases hA : processDse repos u urlsArg (a, ca) dse with ⟨a₁, ca₁⟩
    rcases hB : processDse repos u urlsArg (b, cb) dse with ⟨b₁, cb₁⟩
    rw [hA] at hsub
    have hsubA₁ : merSub a₁ D := by
      apply merSub_trans _ hsub
      have h₁ : (a₁, ca₁).1 = a₁ := rfl
      rw [← h₁]
      exact processDseList_self_sub repos u urlsArg rest a₁ ca₁
    have hstep := processDse_sim repos u urlsArg a b D ca cb dse hsim
      (by rw [hA]; exact hsubA₁)
    rw [hA, hB] at hstep
    exact ih a₁ b₁ D ca₁ cb₁ hstep hsub

theorem processDataElement_eq (repos : List (String × String)) (a : MerDiff)
    (ca : MerCounts) (de : DataElement) (d : String) (cc : CategoryCombo)
    (dses : List DataSetElement)
    (hcode : de.code = some d) (hcc : de.categoryCombo = some cc)
    (hdse : de.dataSetElements = some dses) :
    processDataElement repos (a, ca) de =
      .ok (processDseList repos (merConceptUrl d) (cocPhase a ca d de cc).2.2
        ((cocPhase a ca d de cc).1, (cocPhase a ca d de cc).2.1) dses) := by
  simp only [processDataElement, hcode, hcc, hdse, cocPhase]

theorem processDataElement_sim (repos : List (String × String))
    (a b D : MerDiff) (ca cb : MerCounts) (de : DataElement)
    (st' : MerDiff × MerCounts)
    (h : processDataElement repos (a, ca) de = .ok st')
    (hsim : MerSim a b D)
    (hsub : merSub st'.1 D) :
    ∃ st_b', processDataElement repos (b, cb) de = .ok st_b' ∧
      MerSim st'.1 st_b'.1 D := by
  cases hcode : de.code with
  | none => rw [processDataElement, hcode] at h; exact absurd h (by simp)
  | some d =>
  cases hcc : de.categoryCombo with
  | none =>
    simp only [processDataElement, hcode, hcc] at h
    exact absurd h (by simp)
  | some cc =>
  cases hdse : de.dataSetElements with
  | none =>
    simp only [processDataElement, hcode, hcc, hdse] at h
    exact absurd h (by simp)
  | some dses =>
  rw [processDataElement_eq repos a ca de d cc dses hcode hcc hdse] at h
  rw [Except.ok.injEq] at h
  rcases hPa : cocPhase a ca d de cc with ⟨diff₂, counts₂, urls⟩
  rcases hPb : cocPhase b cb d de cc with ⟨b₂, cb₂, urlsB⟩
  rw [hPa] at h
  simp only at h
  have hPa' : processCocList (merConceptUrl d)
      ({ a with concepts := dictInsert a.concepts (merConceptUrl d) (mkIndicatorConcept d de) },
       { ca with num_indicators := ca.num_indicators + 1 }, ([] : List String))
      cc.categoryOptionCombos = (diff₂, counts₂, urls) := hPa
  have hPb' : processCocList (merConceptUrl d)
      ({ b with concepts := dictInsert b.concepts (merConceptUrl d) (mkIndicatorConcept d de) },
       { cb with num_indicators := cb.num_indicators + 1 }, ([] : List String))
      cc.categoryOptionCombos = (b₂, cb₂, urlsB) := hPb
  have hsub₂ : merSub diff₂ D := by
    apply merSub_trans _ hsub
    rw [← h]
    exact processDseList_self_sub repos (merConceptUrl d) urls dses diff₂ counts₂
  have hsubA₁ : merSub
      { a with concepts := dictInsert a.concepts (merConceptUrl d) (mkIndicatorConcept d de) }
      D := by
    apply merSub_trans _ hsub₂
    have hself := processCocList_self_sub (merConceptUrl d) cc.categoryOptionCombos
      { a with concepts := dictInsert a.concepts (merConceptUrl d) (mkIndicatorConcept d de) }
      { ca with num_indicators := ca.num_indicators + 1 } []
    rw [hPa'] at hself
    exact hself
  have hkI : merConceptUrl d ∈ dictKeys D.concepts := by
    rw [← dictContains_iff_mem_keys]
    apply hsubA₁.1
    exact dictContains_insert_self _ _ _
  have hsimI := DictSim_insert a.concepts b.concepts D.concepts (merConceptUrl d)
    (mkIndicatorConcept d de) hsim.1 hkI
  have hurlsEq : urlsB = urls := by
    have h₁ := processCocList_urls (merConceptUrl d) cc.categoryOptionCombos
      { b with concepts := dictInsert b.concepts (merConceptUrl d) (mkIndicatorConcept d de) }
      { cb with num_indicators := cb.num_indicators + 1 } []
    rw [hPb'] at h₁
    have h₂ := processCocList_urls (merConceptUrl d) cc.categoryOptionCombos
      { a with concepts := dictInsert a.concepts (merConceptUrl d) (mkIndicatorConcept d de) }
      { ca with num_indicators := ca.num_indicators + 1 } []
    rw [hPa'] at h₂
    simp only at h₁ h₂
    rw [h₁, h₂]
  have hstep := processCocList_sim (merConceptUrl d) cc.categoryOptionCombos
    { a with concepts := dictInsert a.concepts (merConceptUrl d) (mkIndicatorConcept d de) }
    { b with concepts := dictInsert b.concepts (merConceptUrl d) (mkIndicatorConcept d de) }
    D { ca with num_indicators := ca.num_indicators + 1 }
    { cb with num_indicators := cb.num_indicators + 1 } [] []
    ⟨hsimI, hsim.2.1, hsim.2.2⟩ (by rw [hPa']; exact hsub₂) hsubA₁
  rw [hPa', hPb'] at hstep
  simp only at hstep
  have hdsim := processDseList_sim repos (merConceptUrl d) urls dses diff₂ b₂ D
    counts₂ cb₂ hstep (by rw [h]; exact hsub)
  refine ⟨processDseList repos (merConceptUrl d) urls (b₂, cb₂) dses, ?_, ?_⟩
  · rw [processDataElement_eq repos b cb de d cc dses hcode hcc hdse, hPb]
    simp only [hurlsEq]
  · rw [← h]
    exact hdsim

theorem processElements_sim (repos : List (String × String)) :
    ∀ (des : List DataElement) (a b : MerDiff) (ca cb : MerCounts)
      (D : MerDiff) (cD : MerCounts),
    processElements repos (a, ca) des = .ok (D, cD) →
    MerSim a b D →
    ∃ st_b', processElements repos (b, cb) des = .ok st_b' ∧ MerSim D st_b'.1 D := by
  intro des
  induction des with
  | nil =>
    intro a b ca cb D cD h hsim
    simp only [processElements, Except.ok.injEq] at h
    have ha : a = D := congrArg Prod.fst h
    subst ha
    exact ⟨(b, cb), rfl, hsim⟩
  | cons de rest ih =>
    intro a b ca cb D cD h hsim
    simp only [processElements] at h
    cases hde : processDataElement repos (a, ca) de with
    | error e => rw [hde] at h; exact absurd h (by simp)
    | ok st₁ =>
      rw [hde] at h
      have hsub₁ : merSub st₁.1 D :=
        processElements_self_sub repos rest st₁ (D, cD) h
      obtain ⟨st_b₁, hb, hsim₁⟩ :=
        processDataElement_sim repos a b D ca cb de st₁ hde hsim hsub₁
      obtain ⟨st_b', hrest, hfinal⟩ := ih st₁.1 st_b₁.1 st₁.2 st_b₁.2 D cD h hsim₁
      refine ⟨st_b', ?_, hfinal⟩
      simp only [processElements]
      rw [hb]
      exact hrest

/-- Claim C4: running `dhis2diff_mer` a second time on the same export,
starting from the snapshot the first run produced, reproduces that snapshot
exactly — the second run changes nothing in any partition.  (The initial
snapshot need only have Python-dict key distinctness, which every real
`dhis2_diff` has; the empty snapshot qualifies.) -/
theorem claim_c4 (repos : List (String × String)) (init : MerDiff) (doc : Dhis2Export)
    (D : MerDiff) (cD : MerCounts)
    (hn : NodupMer init)
    (h1 : dhis2diff_mer repos init doc = .ok (D, cD)) :
    ∃ cD₂, dhis2diff_mer repos D doc = .ok (D, cD₂) := by
  have hnD : NodupMer D :=
    processElements_nodup repos doc.dataElements (init, zeroMerCounts) (D, cD) h1 hn
  have hsim₀ : MerSim init D D :=
    ⟨⟨rfl, fun k => Or.inl rfl⟩, ⟨rfl, fun k => Or.inl rfl⟩, ⟨rfl, fun k => Or.inl rfl⟩⟩
  obtain ⟨st_b', hrun, hsim'⟩ := processElements_sim repos doc.dataElements init D
    zeroMerCounts zeroMerCounts D cD h1 hsim₀
  have heq : st_b'.1 = D := merSim_final_eq D st_b'.1 hsim' hnD
  refine ⟨st_b'.2, ?_⟩
  show processElements repos (D, zeroMerCounts) doc.dataElements = .ok (D, st_b'.2)
  have hrun' : processElements repos (D, zeroMerCounts) doc.dataElements =
      .ok (st_b'.1, st_b'.2) := hrun
  rw [heq] at hrun'
  exact hrun'

/-- Witness for claim C4: rerunning the transformer on the scenario export
from the snapshot of the first run reproduces that snapshot. -/
theorem claim_c4_witness :
    ∃ cD₂, dhis2diff_mer sampleRepos scenarioRun.1 scenarioExport =
      .ok (scenarioRun.1, cD₂) :=
  claim_c4 sampleRepos emptyMerDiff scenarioExport scenarioRun.1 scenarioRun.2
    ⟨List.nodup_nil, List.nodup_nil, List.nodup_nil⟩ rfl

end Datim
